import Mathlib

/-!
The static blog generator graaff (graaff.go, config.go).

A shallow embedding of the generation pipeline of `graaff.go` and of the
configuration check of `config.go`, and theorems about them.

Go strings are modelled as lists of Unicode code points (`Str`), that is, as
valid UTF-8 text.  Substring search, splitting and joining on valid UTF-8 agree
at the byte level and at the code-point level; where the source measures or
compares bytes (`len`, `bytes.Compare`) the model goes through the UTF-8
encoding `toBytes`.
-/

namespace Graaff

/-- A Go string holding valid UTF-8 text: the list of its code points. -/
abbrev Str := List Char

/-! ## The part of the Go standard library the program uses -/

/-- The function `strings.HasPrefix s sep`. -/
def hasPrefix : Str → Str → Bool
  | _, [] => true
  | [], _ :: _ => false
  | c :: cs, d :: ds => c == d && hasPrefix cs ds

/-- The function `strings.Index s sep`: the position of the first occurrence of
`sep` in `s`, `none` standing for Go's `-1`. -/
def Index : Str → Str → Option Nat
  | [], sep => if sep = [] then some 0 else none
  | c :: cs, sep =>
    if hasPrefix (c :: cs) sep then some 0
    else match Index cs sep with
      | some m => some (m + 1)
      | none => none

/-- The loop of `strings.Count` for a non-empty `sep`: find the first occurrence,
count it, go on behind it.  The loop ends when `Index` finds nothing; every round
consumes at least one character, so `s.length` rounds always suffice. -/
def countLoop (sep : Str) : Nat → Str → Nat
  | 0, _ => 0
  | fuel + 1, s =>
    match Index s sep with
    | none => 0
    | some m => countLoop sep fuel (s.drop (m + sep.length)) + 1

/-- The function `strings.Count s sep`: the number of non-overlapping occurrences
of `sep` in `s`, found from left to right (for the empty `sep`, one more than the
number of code points). -/
def Count (s sep : Str) : Nat :=
  if sep = [] then s.length + 1 else countLoop sep s.length s

/-- The function `explode` of package strings with no limit: one string per code
point. -/
def explode (s : Str) : List Str := s.map (fun c => [c])

/-- The loop of `genSplit`: at most `n` cuts, each at the first occurrence of
`sep` in what is left, keeping `sepSave` characters of the separator on the
piece before the cut. -/
def genSplitLoop (sep : Str) (sepSave : Nat) : Nat → Str → List Str
  | 0, s => [s]
  | n + 1, s =>
    match Index s sep with
    | none => [s]
    | some m => s.take (m + sepSave) :: genSplitLoop sep sepSave n (s.drop (m + sep.length))

/-- The function `genSplit s sep sepSave (-1)` of package strings: it cuts
`Count s sep` times.  (The clamp of the piece count to `len(s)+1` never applies
to a non-empty separator.) -/
def genSplit (s sep : Str) (sepSave : Nat) : List Str :=
  if sep = [] then explode s else genSplitLoop sep sepSave (Count s sep) s

/-- The function `strings.Split`. -/
def Split (s sep : Str) : List Str := genSplit s sep 0

/-- The function `strings.SplitAfter`. -/
def SplitAfter (s sep : Str) : List Str := genSplit s sep sep.length

/-- The function `strings.Join`. -/
def Join : List Str → Str → Str
  | [], _ => []
  | [a], _ => a
  | a :: b :: rest, sep => a ++ sep ++ Join (b :: rest) sep

/-- The predicate `unicode.IsSpace`: the code points with the White_Space
property. -/
def isSpace (c : Char) : Bool :=
  let n := c.toNat
  (9 ≤ n && n ≤ 13) || n == 32 || n == 0x85 || n == 0xA0 || n == 0x1680 ||
  (0x2000 ≤ n && n ≤ 0x200A) || n == 0x2028 || n == 0x2029 || n == 0x202F ||
  n == 0x205F || n == 0x3000

/-- The function `strings.TrimSpace`: drop the white space at both ends. -/
def TrimSpace (s : Str) : Str :=
  ((s.dropWhile isSpace).reverse.dropWhile isSpace).reverse

/-! ## graaff.go: the pure helpers -/

/-- The function `changeExtension`.  The slice expression `parts[:len(parts)-1]`
fails at run time (`none`) for an empty `parts`. -/
def changeExtension (filename newExtension : Str) : Option Str :=
  let parts := SplitAfter filename ".".toList
  if parts.length = 0 then none
  else
    let fileArray := parts.dropLast
    some (Join fileArray [] ++ newExtension)

/-- The function `truncate`.  The count is a Go `int`; the slice expression
`parts[:i]` fails at run time (`none`) when `i` is negative. -/
def truncate (s : Str) (i : Int) : Option Str :=
  let parts := SplitAfter s "</p>".toList
  if (parts.length : Int) < i then some s
  else if i < 0 then none
  else some (Join (parts.take i.toNat) [])

/-- One byte sequence per code point: the UTF-8 encoding. -/
def utf8Char (c : Char) : List Nat :=
  let n := c.toNat
  if n < 0x80 then [n]
  else if n < 0x800 then [0xC0 + n / 64, 0x80 + n % 64]
  else if n < 0x10000 then [0xE0 + n / 4096, 0x80 + n / 64 % 64, 0x80 + n % 64]
  else [0xF0 + n / 262144, 0x80 + n / 4096 % 64, 0x80 + n / 64 % 64, 0x80 + n % 64]

/-- The bytes of a Go string, the conversion `[]byte(s)`. -/
def toBytes (s : Str) : List Nat := s.flatMap utf8Char

/-- The function `bytes.Compare`: -1, 0 or 1 by the lexicographic order of the
bytes. -/
def bytesCompare : List Nat → List Nat → Int
  | [], [] => 0
  | [], _ :: _ => -1
  | _ :: _, [] => 1
  | a :: as, b :: bs => if a < b then -1 else if b < a then 1 else bytesCompare as bs

/-! ## The shared render context: a Go `map[string]interface{}` -/

/-- The summary of a post, the struct `Post`. -/
structure Post where
  Title : Str
  Published : Str
  Author : Str
  Abstract : Str
  Filename : Str
deriving DecidableEq

/-- The values the program stores in the context: strings, and the list of
summaries under `Posts`. -/
inductive Value where
  | str (s : Str)
  | posts (ps : List Post)
deriving DecidableEq

/-- The context: a list of bindings with at most one binding per key in use. -/
abbrev Ctx := List (Str × Value)

/-- The map read `d[k]`, with the `ok` of the two-value form as `Option`. -/
def mapGet : Ctx → Str → Option Value
  | [], _ => none
  | (k', v) :: rest, k => if k' = k then some v else mapGet rest k

/-- The builtin `delete(d, k)`. -/
def mapDelete (d : Ctx) (k : Str) : Ctx := d.filter (fun p => decide (p.1 ≠ k))

/-- The map write `d[k] = v`. -/
def mapSet (d : Ctx) (k : Str) (v : Value) : Ctx := (k, v) :: mapDelete d k

/-- The loop of `parseConfig` over the segments.  An empty segment ends the
function (`return`); indexing `l[0]` fails at run time (`none`) on an empty
`l`. -/
def parseConfigLoop : List Str → Ctx → Option Ctx
  | [], params => some params
  | line :: rest, params =>
    if line = [] then some params
    else
      match Split line ":".toList with
      | [] => none
      | l0 :: l1 =>
        parseConfigLoop rest
          (mapSet params (TrimSpace l0) (Value.str (TrimSpace (Join l1 ":".toList))))

/-- The function `parseConfig` of graaff.go; the result is the mapping after the
call. -/
def parseConfig (conf : Str) (params : Ctx) (sep : Str) : Option Ctx :=
  parseConfigLoop (Split conf sep) params

/-- The key `parseConfig` computes for a segment: `strings.TrimSpace(l[0])` with
`l := strings.Split(line, ":")`. -/
def lineKey (line : Str) : Str := TrimSpace ((Split line ":".toList).headD [])

/-- The value `parseConfig` computes for a segment:
`strings.TrimSpace(strings.Join(l[1:], ":"))` with `l := strings.Split(line, ":")`. -/
def lineValue (line : Str) : Str := TrimSpace (Join (Split line ":".toList).tail ":".toList)

/-! ## Publish dates: package time -/

/-! An instant is an integer: the nanoseconds since the zero `time.Time`,
0001-01-01 00:00 UTC. -/

/-- A decimal digit. -/
def isDigit (c : Char) : Bool := 48 ≤ c.toNat && c.toNat ≤ 57

/-- The value of a decimal digit. -/
def digitVal (c : Char) : Nat := c.toNat - 48

/-- The year of the layout element `2006`: exactly four digits. -/
def parseYear : Str → Option (Nat × Str)
  | a :: b :: c :: d :: rest =>
    if isDigit a && isDigit b && isDigit c && isDigit d then
      some (digitVal a * 1000 + digitVal b * 100 + digitVal c * 10 + digitVal d, rest)
    else none
  | _ => none

/-- The function `getnum` of package time with `fixed = true`: two digits. -/
def getnumFixed : Str → Option (Nat × Str)
  | a :: b :: rest =>
    if isDigit a && isDigit b then some (digitVal a * 10 + digitVal b, rest) else none
  | _ => none

/-- The function `getnum` of package time with `fixed = false`: one digit, or two
when a second digit follows. -/
def getnumFree : Str → Option (Nat × Str)
  | [] => none
  | a :: rest =>
    if !isDigit a then none
    else match rest with
      | [] => some (digitVal a, [])
      | b :: rest2 =>
        if isDigit b then some (digitVal a * 10 + digitVal b, rest2)
        else some (digitVal a, b :: rest2)

/-- The function `skip` of package time for a one-character literal of the
layout other than the space. -/
def skipChar (c : Char) : Str → Option Str
  | [] => none
  | x :: rest => if x = c then some rest else none

/-- The function `skip` of package time for a space of the layout: any run of
spaces of the value, which must be there unless the value has ended. -/
def skipSpace : Str → Option Str
  | [] => some []
  | x :: rest => if x = ' ' then some ((x :: rest).dropWhile (fun c => c == ' ')) else none

/-- Leap years of the proleptic Gregorian calendar. -/
def isLeap (year : Nat) : Bool := year % 4 == 0 && (year % 100 != 0 || year % 400 == 0)

/-- The function `daysIn` of package time. -/
def daysIn (month year : Nat) : Nat :=
  if month = 2 then (if isLeap year then 29 else 28)
  else if month = 4 ∨ month = 6 ∨ month = 9 ∨ month = 11 then 30 else 31

/-- Days from 0001-01-01 to the first day of `year`. -/
def daysBeforeYear (year : Nat) : Int :=
  let y : Int := (year : Int) - 1
  365 * y + y / 4 - y / 100 + y / 400

/-- Days from the first day of `year` to the first day of `month`. -/
def daysBeforeMonth (month year : Nat) : Nat :=
  ((List.range (month - 1)).map (fun m => daysIn (m + 1) year)).sum

/-- The function `time.Date` in UTC, for a validated date and time of day. -/
def dateInstant (year month day hour min : Nat) : Int :=
  ((((daysBeforeYear year + daysBeforeMonth month year + ((day : Int) - 1)) * 24
    + hour) * 60 + min) * 60) * 1000000000

/-- The year, month and day of the layout `2006-01-02`, and the rest of the
value. -/
def parseYMD (ts : Str) : Option (Nat × Nat × Nat × Str) :=
  match parseYear ts with
  | none => none
  | some (year, r1) =>
    match skipChar '-' r1 with
    | none => none
    | some r2 =>
      match getnumFixed r2 with
      | none => none
      | some (month, r3) =>
        if month = 0 ∨ 12 < month then none
        else match skipChar '-' r3 with
          | none => none
          | some r4 =>
            match getnumFixed r4 with
            | none => none
            | some (day, r5) => some (year, month, day, r5)

/-- The call `time.Parse("2006-01-02", ts)`, `none` standing for an error. -/
def timeParseShort (ts : Str) : Option Int :=
  match parseYMD ts with
  | none => none
  | some (year, month, day, rest) =>
    if rest ≠ [] then none
    else if day < 1 ∨ daysIn month year < day then none
    else some (dateInstant year month day 0 0)

/-- The call `time.Parse("2006-01-02 15:04", ts)`, `none` standing for an error. -/
def timeParseLong (ts : Str) : Option Int :=
  match parseYMD ts with
  | none => none
  | some (year, month, day, r1) =>
    match skipSpace r1 with
    | none => none
    | some r2 =>
      match getnumFree r2 with
      | none => none
      | some (hour, r3) =>
        if 24 ≤ hour then none
        else match skipChar ':' r3 with
          | none => none
          | some r4 =>
            match getnumFixed r4 with
            | none => none
            | some (min, r5) =>
              if 60 ≤ min then none
              else if r5 ≠ [] then none
              else if day < 1 ∨ daysIn month year < day then none
              else some (dateInstant year month day hour min)

/-- The function `parseTimeString`, with the value of `time.Now()` as `now`.  On
a parse error `time.Parse` returns the zero time, which the assignment
`t, _ = time.Parse(...)` stores. -/
def parseTimeString (now : Int) (ts : Str) : Int :=
  if (toBytes ts).length = 10 then (timeParseShort ts).getD 0
  else if (toBytes ts).length = 16 then (timeParseLong ts).getD 0
  else now

/-- The method `ByPublished.Less`, on the two posts it compares.  Each of its two
calls of `parseTimeString` reads the clock: `ci` is the value of `time.Now()` in
the call for the first post, `cj` in the call for the second. -/
def Less (ci cj : Int) (pi pj : Post) : Bool :=
  let bi := parseTimeString ci pi.Published
  let bj := parseTimeString cj pj.Published
  if bi = bj then decide (bytesCompare (toBytes pi.Title) (toBytes pj.Title) < 0)
  else decide (bj < bi)

/-- The `k`-th call of `ByPublished.Less` in a run of the program, `clock n` being
the value of the `n`-th call of `time.Now()`: `Less` is the only reader of the
clock and reads it twice in each call. -/
def lessAt (clock : Nat → Int) (k : Nat) (pi pj : Post) : Bool :=
  Less (clock (2 * k)) (clock (2 * k + 1)) pi pj

/-- The inner loop of the library's `insertionSort`: the new element moves left
past every element it is less than.  The sorted part is held last element
first; `cmp k` is the answer of the `k`-th comparison, and the result carries
the number of comparisons made so far. -/
def insertLeft (cmp : Nat → Post → Post → Bool) (x : Post) :
    List Post → Nat → List Post × Nat
  | [], k => ([x], k)
  | y :: ys, k =>
    if cmp k x y then
      let r := insertLeft cmp x ys (k + 1)
      (y :: r.1, r.2)
    else (x :: y :: ys, k + 1)

/-- The function `insertionSort` of package sort on a whole slice. -/
def insertionSort (cmp : Nat → Post → Post → Bool) (posts : List Post) : List Post :=
  (posts.foldl (fun acc x => insertLeft cmp x acc.1 acc.2) (([] : List Post), 0)).1.reverse

/-- The function `sort.Sort` of package sort (Go 1.19 and later): a slice of at
most twelve elements is sorted by `insertionSort`; a longer one by the other
parts of the library's pattern-defeating quicksort, which are not part of this
program and are taken as the parameter `sortLong`. -/
def sortSort (sortLong : (Nat → Post → Post → Bool) → List Post → List Post)
    (cmp : Nat → Post → Post → Bool) (posts : List Post) : List Post :=
  if posts.length ≤ 12 then insertionSort cmp posts else sortLong cmp posts

/-- What package sort promises of its routine for long slices: when the
comparisons of the elements of the slice are those of an ordering `less` that is
asymmetric and whose complement is transitive, the result is a permutation of
the slice in which no element is `less` than one before it. -/
def SortsByLess (sortLong : (Nat → Post → Post → Bool) → List Post → List Post) : Prop :=
  ∀ (cmp : Nat → Post → Post → Bool) (less : Post → Post → Bool) (posts : List Post),
    (∀ k, ∀ a ∈ posts, ∀ b ∈ posts, cmp k a b = less a b) →
    (∀ a b, less a b = true → ¬ less b a = true) →
    (∀ a b c, ¬ less a b = true → ¬ less b c = true → ¬ less a c = true) →
    (sortLong cmp posts).Perm posts ∧
      (sortLong cmp posts).Pairwise (fun a b => ¬ less b a = true)

/-! ## The pipeline of `main` -/

/-- The command-line flags of `main`. -/
structure Flags where
  subFolder : Str
  outFolder : Str
  layoutFolder : Str
  baseTmpl : Str
  postTmpl : Str
  overviewTmpl : Str
  index : Str
  overviewTitle : Str
  truncateLength : Int
  seperator : Str
  config : Str
  configFile : Str

/-- The answer of `os.Stat` as far as `writeFile` looks at it. -/
inductive StatResult where
  | found
  | notExist
  | failed (err : Str)

/-- The collaborators outside the program: the working directory, the clock
(`clock n` is the value of the `n`-th call of `time.Now()`), the routine of
package sort for long slices, the markdown renderer, the template engine (parse
a template file and execute it on a context) and the file system with states of
type `FS`. -/
structure World (FS : Type) where
  baseFolder : Str
  clock : Nat → Int
  sortLong : (Nat → Post → Post → Bool) → List Post → List Post
  markdown : Str → Str
  template : Str → Ctx → Except Str Str
  stat : FS → Str → StatResult
  mkdir : FS → Str → FS
  ioWriteFile : FS → Str → Str → Option Str × FS

/-- How a run ends early: `log.Fatal` with a message, or a run-time panic. -/
inductive Failure where
  | fatal (msg : Str)
  | panic
deriving DecidableEq

/-- What the loop of `main` carries: the context `d`, the summaries `posts` and
the file system. -/
structure State (FS : Type) where
  d : Ctx
  posts : List Post
  fs : FS

/-- The format `%v/%v` of `fmt.Sprintf` on two strings. -/
def joinPath (a b : Str) : Str := a ++ "/".toList ++ b

/-- The format `%v` of a context value. -/
def fmtValue : Value → Str
  | Value.str s => s
  | Value.posts ps =>
    "[".toList ++ Join (ps.map (fun p => "\x7b".toList ++ Join [p.Title, p.Published, p.Author,
      p.Abstract, p.Filename] " ".toList ++ "\x7d".toList)) " ".toList ++ "]".toList

/-- The function `writeFile`: the error it returns and the file system after. -/
def writeFile {FS : Type} (w : World FS) (fs : FS) (outPath htmlName html : Str) :
    Option Str × FS :=
  match w.stat fs outPath with
  | StatResult.failed err => (some err, fs)
  | StatResult.notExist => w.ioWriteFile (w.mkdir fs outPath) (joinPath outPath htmlName) html
  | StatResult.found => w.ioWriteFile fs (joinPath outPath htmlName) html

/-- The function `parseTemplate`. -/
def parseTemplate {FS : Type} (w : World FS) (file : Str) (data : Ctx) : Except Str Str :=
  w.template file data

/-- The function `generateHtml`: the bytes and the error it returns, and the
mapping `params` after the call. -/
def generateHtml {FS : Type} (w : World FS) (baseTmpl tmpl : Str) (params : Ctx) :
    (Str × Option Str) × Ctx :=
  match parseTemplate w tmpl params with
  | Except.error err => (([], some err), params)
  | Except.ok base =>
    let params1 := mapSet params "Content".toList (Value.str base)
    match parseTemplate w baseTmpl params1 with
    | Except.error err => (([], some err), params1)
    | Except.ok content => ((content, none), params1)

/-- The directory of the layouts. -/
def layoutPath {FS : Type} (w : World FS) (fl : Flags) : Str :=
  joinPath w.baseFolder fl.layoutFolder

/-- The directory of the generated files. -/
def outPath {FS : Type} (w : World FS) (fl : Flags) : Str :=
  joinPath w.baseFolder fl.outFolder

/-- The base template file. -/
def baseTemplate {FS : Type} (w : World FS) (fl : Flags) : Str :=
  joinPath (layoutPath w fl) fl.baseTmpl

/-- The default template file of a post. -/
def postTemplate {FS : Type} (w : World FS) (fl : Flags) : Str :=
  joinPath (layoutPath w fl) fl.postTmpl

/-- The template file of the overview. -/
def overviewTemplate {FS : Type} (w : World FS) (fl : Flags) : Str :=
  joinPath (layoutPath w fl) fl.overviewTmpl

/-- The call `sort.Sort(ByPublished(posts))` of `main`. -/
def sortPosts {FS : Type} (w : World FS) (posts : List Post) : List Post :=
  sortSort w.sortLong (lessAt w.clock) posts

/-- The message of the fatal error on a wrong number of separators. -/
def formatError : Failure :=
  Failure.fatal "Error in parsing post file. Ensure seperator is present, once".toList

/-- The loop body of `main` up to the compiled markdown: split the text at the
separator, merge the front-matter into the context, store the rendered body
under `Post`. -/
def docContext {FS : Type} (w : World FS) (fl : Flags) (d : Ctx) (text : Str) :
    Except Failure Ctx :=
  match Split text fl.seperator with
  | [front, body] =>
    match parseConfig front d "\n".toList with
    | none => Except.error Failure.panic
    | some d1 => Except.ok (mapSet d1 "Post".toList (Value.str (w.markdown body)))
  | _ => Except.error formatError

/-- The loop body of `main` from the check for a custom layout to the composed
page: the content template handed to `generateHtml`, the bytes it returned (its
error is dropped by `content, _ =`), and the context after. -/
def composePost {FS : Type} (w : World FS) (fl : Flags) (d : Ctx) : Str × Str × Ctx :=
  match mapGet d "Layout".toList with
  | some v =>
    let customLayoutFile := joinPath (layoutPath w fl) (fmtValue v)
    let r := generateHtml w (baseTemplate w fl) customLayoutFile d
    (customLayoutFile, r.1.1, mapDelete r.2 "Layout".toList)
  | none =>
    let r := generateHtml w (baseTemplate w fl) (postTemplate w fl) d
    (postTemplate w fl, r.1.1, r.2)

/-- The type assertion `d[k].(string)`, which panics (`none`) when the key is
absent or holds no string. -/
def assertString (d : Ctx) (k : Str) : Option Str :=
  match mapGet d k with
  | some (Value.str s) => some s
  | _ => none

/-- The composite literal `Post{...}` appended at the end of the loop body. -/
def buildPost (fl : Flags) (d : Ctx) (htmlName : Str) : Option Post :=
  match assertString d "Title".toList with
  | none => none
  | some title =>
    match assertString d "Published".toList with
    | none => none
    | some published =>
      match assertString d "Author".toList with
      | none => none
      | some author =>
        match assertString d "Post".toList with
        | none => none
        | some post =>
          match truncate post fl.truncateLength with
          | none => none
          | some abstract =>
            some { Title := title, Published := published, Author := author,
                   Abstract := abstract, Filename := htmlName }

/-- One round of the loop of `main` for the file `name` with the content `text`:
how the round ends (`none`: the loop goes on) and the state it leaves. -/
def runDoc {FS : Type} (w : World FS) (fl : Flags) (st : State FS) (name text : Str) :
    Option Failure × State FS :=
  match docContext w fl st.d text with
  | Except.error e => (some e, st)
  | Except.ok d1 =>
    let c := composePost w fl d1
    let d2 := c.2.2
    match changeExtension name "html".toList with
    | none => (some Failure.panic, { st with d := d2 })
    | some htmlName =>
      match writeFile w st.fs (outPath w fl) htmlName c.2.1 with
      | (some err, fs1) => (some (Failure.fatal err), { d := d2, posts := st.posts, fs := fs1 })
      | (none, fs1) =>
        match buildPost fl d2 htmlName with
        | none => (some Failure.panic, { d := d2, posts := st.posts, fs := fs1 })
        | some post => (none, { d := d2, posts := st.posts ++ [post], fs := fs1 })

/-- The loop of `main` over the files of the posts folder. -/
def runDocs {FS : Type} (w : World FS) (fl : Flags) :
    State FS → List (Str × Str) → Option Failure × State FS
  | st, [] => (none, st)
  | st, (name, text) :: rest =>
    match runDoc w fl st name text with
    | (some e, st1) => (some e, st1)
    | (none, st1) => runDocs w fl st1 rest

/-- The function `main` of graaff.go after the flags are parsed and the posts
folder is listed: `confText` is the content of the config file (empty when it
cannot be read), `files` the names and contents of the files of the posts
folder. -/
def main {FS : Type} (w : World FS) (fl : Flags) (fs0 : FS) (confText : Str)
    (files : List (Str × Str)) : Option Failure × State FS :=
  match parseConfig confText [] "\n".toList with
  | none => (some Failure.panic, { d := [], posts := [], fs := fs0 })
  | some d0 =>
    match parseConfig fl.config d0 ",".toList with
    | none => (some Failure.panic, { d := d0, posts := [], fs := fs0 })
    | some d1 =>
      match runDocs w fl { d := d1, posts := [], fs := fs0 } files with
      | (some e, st) => (some e, st)
      | (none, st) =>
        let posts := sortPosts w st.posts
        let d2 := mapSet (mapSet st.d "Posts".toList (Value.posts posts)) "Title".toList
          (Value.str fl.overviewTitle)
        let r := generateHtml w (baseTemplate w fl) (overviewTemplate w fl) d2
        let x := writeFile w st.fs (outPath w fl) fl.index r.1.1
        (none, { d := r.2, posts := posts, fs := x.2 })

/-! ## A small world to run the pipeline in -/

/-- The default values of the flags. -/
def defaultFlags : Flags where
  subFolder := "posts".toList
  outFolder := "output".toList
  layoutFolder := "layouts".toList
  baseTmpl := "base.html".toList
  postTmpl := "post.html".toList
  overviewTmpl := "overview.html".toList
  index := "index.html".toList
  overviewTitle := "Index".toList
  truncateLength := 1
  seperator := "-----".toList
  config := []
  configFile := "variables.conf".toList

/-- A world for examples: the clock stands still, long slices are sorted by the
insertion sort too, the file system is the list of the files written, the
renderer wraps the text in a paragraph, and a template renders to its own name
followed by the `Content` of the context, if any. -/
def demoWorld : World (List (Str × Str)) where
  baseFolder := "/site".toList
  clock := fun _ => 0
  sortLong := insertionSort
  markdown := fun body => "<p>".toList ++ body ++ "</p>".toList
  template := fun file data =>
    match mapGet data "Content".toList with
    | some v => Except.ok (file ++ "|".toList ++ fmtValue v)
    | none => Except.ok file
  stat := fun _ _ => StatResult.found
  mkdir := fun fs _ => fs
  ioWriteFile := fun fs path html => (none, fs ++ [(path, html)])

/-- The example world with a clock that moves on by one at every reading. -/
def tickingWorld : World (List (Str × Str)) :=
  { demoWorld with clock := fun n => (n : Int) }

/-- The example world with a template engine that finds no template file. -/
def failWorld : World (List (Str × Str)) :=
  { demoWorld with template := fun _ _ => Except.error "no such file".toList }

/-! ## config.go: the configuration record -/

/-- The struct `Config` of config.go; `Globals` is a Go `map[string]string`, held
as the list of its bindings. -/
structure Config where
  Globals : List (Str × Str)
  LayoutFolder : Str
  LayoutFile : Str
  OutputFolder : Str
  OverviewFile : Str
  Seperator : Str
  PostsFolder : Str
  BaseTemplate : Str
  Truncate : Int
deriving DecidableEq

/-- The function `validateConfig` of config.go, from the global `config` before
the call to the global `config` after it; the `if` statements run in the
order of the source, each on the result of the one before. -/
def validateConfig (config : Config) : Config :=
  let c1 := if config.Globals.length = 0 then
      { config with Globals := [("SiteName".toList, "My blog".toList),
          ("Author".toList, "Someone".toList), ("Category".toList, "posts".toList)] }
    else config
  let c2 := if c1.LayoutFolder = [] then { c1 with LayoutFolder := "layouts".toList } else c1
  let c3 := if c2.LayoutFile = [] then { c2 with LayoutFile := "index.html".toList } else c2
  let c4 := if c3.OutputFolder = [] then { c3 with OutputFolder := "generated".toList } else c3
  let c5 := if c4.OverviewFile = [] then { c4 with LayoutFile := "overview.html".toList } else c4
  let c6 := if c5.Seperator = [] then { c5 with Seperator := "-----".toList } else c5
  let c7 := if c6.PostsFolder = [] then { c6 with PostsFolder := "posts".toList } else c6
  let c8 := if c7.BaseTemplate = [] then { c7 with PostsFolder := "base.html".toList } else c7
  c8

/-- The zero value of `Config`: the global `config` before anything is read. -/
def emptyConfig : Config where
  Globals := []
  LayoutFolder := []
  LayoutFile := []
  OutputFolder := []
  OverviewFile := []
  Seperator := []
  PostsFolder := []
  BaseTemplate := []
  Truncate := 0

/-! ## Facts about the string functions -/

theorem hasPrefix_iff (s sep : Str) : hasPrefix s sep = true ↔ sep <+: s := by
  induction s generalizing sep with
  | nil => cases sep <;> simp [hasPrefix]
  | cons c cs ih =>
    cases sep with
    | nil => simp [hasPrefix]
    | cons d ds =>
      simp only [hasPrefix, Bool.and_eq_true, beq_iff_eq, ih, List.cons_prefix_cons]
      exact ⟨fun h => ⟨h.1.symm, h.2⟩, fun h => ⟨h.1.symm, h.2⟩⟩

/-- What `Index` finds is an occurrence. -/
theorem Index_some_split {s sep : Str} {m : Nat} (h : Index s sep = some m) :
    s = s.take m ++ sep ++ s.drop (m + sep.length) ∧ m + sep.length ≤ s.length := by
  induction s generalizing m with
  | nil =>
    simp only [Index] at h
    split at h
    · rename_i hs; subst hs; simp at h; subst h; simp
    · simp at h
  | cons c cs ih =>
    simp only [Index] at h
    split at h
    · rename_i hp
      simp at h; subst h
      obtain ⟨t, ht⟩ := (hasPrefix_iff _ _).1 hp
      rw [← ht]; simp
    · split at h
      · rename_i m' hm'
        simp at h; subst h
        obtain ⟨h1, h2⟩ := ih hm'
        constructor
        · rw [List.take_succ_cons, show m' + 1 + sep.length = (m' + sep.length) + 1 by omega,
            List.drop_succ_cons]
          simp only [List.cons_append]
          exact congrArg _ h1
        · simp; omega
      · simp at h

/-- When `Index` finds nothing, the separator is not inside the string. -/
theorem Index_none_iff (s sep : Str) : Index s sep = none ↔ ¬ sep <:+: s := by
  induction s with
  | nil =>
    simp only [Index]
    by_cases hs : sep = []
    · simp [hs]
    · simp [hs]
  | cons c cs ih =>
    simp only [Index]
    split
    · rename_i hp
      simp only [reduceCtorEq, false_iff, not_not]
      exact ((hasPrefix_iff _ _).1 hp).isInfix
    · rename_i hp
      rw [hasPrefix_iff] at hp
      split
      · rename_i m hm
        simp only [reduceCtorEq, false_iff, not_not]
        have : ¬ Index cs sep = none := by simp [hm]
        rw [ih, not_not] at this
        exact List.infix_cons this
      · rename_i hm
        simp only [true_iff]
        rw [ih] at hm
        intro hin
        rcases List.infix_cons_iff.1 hin with h | h
        · exact hp h
        · exact hm h

/-- The first occurrence: nothing that starts earlier is an occurrence. -/
theorem Index_first {a sep b : Str} (hsep : sep ≠ [])
    (hfirst : ¬ sep <:+: a ++ sep.dropLast) :
    Index (a ++ sep ++ b) sep = some a.length := by
  induction a with
  | nil =>
    cases sep with
    | nil => exact absurd rfl hsep
    | cons d ds =>
      have : hasPrefix ((d :: ds) ++ b) (d :: ds) = true :=
        (hasPrefix_iff _ _).2 (List.prefix_append _ _)
      simp only [List.nil_append, List.cons_append, List.length_nil] at this ⊢
      simp [Index, this]
  | cons c cs ih =>
    have hnp : ¬ hasPrefix (c :: cs ++ sep ++ b) sep = true := by
      rw [hasPrefix_iff]
      intro hp
      apply hfirst
      have h1 : sep <+: (c :: cs ++ sep.dropLast) ++ (sep.drop (sep.length - 1) ++ b) := by
        have : (c :: cs ++ sep.dropLast) ++ (sep.drop (sep.length - 1) ++ b)
            = c :: cs ++ sep ++ b := by
          rw [List.dropLast_eq_take]
          simp only [List.append_assoc, List.cons_append]
          rw [← List.append_assoc (List.take _ _), List.take_append_drop]
        rw [this]; exact hp
      have h2 : sep.length ≤ (c :: cs ++ sep.dropLast).length := by
        simp only [List.cons_append, List.length_cons, List.length_append,
          List.length_dropLast]
        have : 0 < sep.length := List.length_pos.2 hsep
        omega
      exact (List.prefix_of_prefix_length_le h1 (List.prefix_append _ _) h2).isInfix
    have hrec : ¬ sep <:+: cs ++ sep.dropLast := fun h =>
      hfirst (by simpa using List.infix_cons h)
    simp only [List.cons_append, List.append_assoc] at hnp ⊢
    simp only [Index, hnp, Bool.false_eq_true, if_false]
    have := ih hrec
    simp only [List.append_assoc] at this
    rw [this]; simp

/-- An occurrence found by `Index` is the first one. -/
theorem Index_some_minimal {s sep : Str} {m : Nat} (hsep : sep ≠ [])
    (h : Index s sep = some m) : ¬ sep <:+: s.take m ++ sep.dropLast := by
  have hlen : 0 < sep.length := List.length_pos.2 hsep
  induction s generalizing m with
  | nil =>
    simp [Index, hsep] at h
  | cons c cs ih =>
    simp only [Index] at h
    split at h
    · simp at h; subst h
      intro hin
      have := hin.length_le
      simp at this
      omega
    · rename_i hp
      rw [hasPrefix_iff] at hp
      split at h
      · rename_i m' hm'
        simp at h; subst h
        intro hin
        rw [List.take_succ_cons, List.cons_append] at hin
        rcases List.infix_cons_iff.1 hin with h1 | h1
        · apply hp
          have hcs := (Index_some_split hm').1
          have h2 : c :: (List.take m' cs ++ sep.dropLast) <+: c :: cs := by
            rw [List.cons_prefix_cons]
            refine ⟨rfl, ?_⟩
            conv => rhs; rw [hcs]
            rw [List.append_assoc]
            refine (List.prefix_append_right_inj _).2 ?_
            exact (List.dropLast_prefix sep).trans (List.prefix_append _ _)
          exact h1.trans h2
        · exact ih hm' h1
      · simp at h

theorem countLoop_fuel {sep : Str} (hsep : sep ≠ []) (f g : Nat) (s : Str)
    (hf : s.length ≤ f) (hg : s.length ≤ g) : countLoop sep f s = countLoop sep g s := by
  have hlen : 0 < sep.length := List.length_pos.2 hsep
  induction f generalizing s g with
  | zero =>
    have hs : s = [] := List.length_eq_zero.1 (by omega)
    subst hs
    cases g <;> simp [countLoop, Index, hsep]
  | succ f ih =>
    cases g with
    | zero =>
      have hs : s = [] := List.length_eq_zero.1 (by omega)
      subst hs
      simp [countLoop, Index, hsep]
    | succ g =>
      simp only [countLoop]
      cases hI : Index s sep with
      | none => rfl
      | some m =>
        simp only
        have h2 := (Index_some_split hI).2
        rw [ih g (s.drop (m + sep.length)) (by simp; omega) (by simp; omega)]

theorem Count_none {s sep : Str} (hsep : sep ≠ []) (h : Index s sep = none) :
    Count s sep = 0 := by
  simp only [Count, hsep, if_false]
  cases hl : s.length with
  | zero => rfl
  | succ n => simp [countLoop, h]

theorem Count_some {s sep : Str} {m : Nat} (hsep : sep ≠ []) (h : Index s sep = some m) :
    Count s sep = Count (s.drop (m + sep.length)) sep + 1 := by
  have hlen : 0 < sep.length := List.length_pos.2 hsep
  have h2 := (Index_some_split h).2
  simp only [Count, hsep, if_false]
  cases hl : s.length with
  | zero => omega
  | succ n =>
    simp only [countLoop, h]
    rw [countLoop_fuel hsep n _ (s.drop (m + sep.length)) (by simp; omega) (le_refl _)]

theorem genSplit_none {s sep : Str} (k : Nat) (hsep : sep ≠ []) (h : Index s sep = none) :
    genSplit s sep k = [s] := by
  simp only [genSplit, hsep, if_false]
  cases Count s sep <;> simp [genSplitLoop, h]

theorem genSplit_some {s sep : Str} {m : Nat} (k : Nat) (hsep : sep ≠ [])
    (h : Index s sep = some m) :
    genSplit s sep k = s.take (m + k) :: genSplit (s.drop (m + sep.length)) sep k := by
  simp only [genSplit, hsep, if_false, Count_some hsep h, genSplitLoop, h]

/-- Induction along the cuts of `genSplit`. -/
theorem split_induction {sep : Str} (hsep : sep ≠ []) (P : Str → Prop)
    (hnone : ∀ s, Index s sep = none → P s)
    (hsome : ∀ s m, Index s sep = some m → P (s.drop (m + sep.length)) → P s) :
    ∀ s, P s := by
  have hlen : 0 < sep.length := List.length_pos.2 hsep
  have key : ∀ n (s : Str), s.length = n → P s := by
    intro n
    induction n using Nat.strong_induction_on with
    | _ n ih =>
      intro s hn
      cases hI : Index s sep with
      | none => exact hnone s hI
      | some m =>
        have h2 := (Index_some_split hI).2
        exact hsome s m hI (ih (s.drop (m + sep.length)).length (by simp; omega) _ rfl)
  exact fun s => key _ s rfl

theorem genSplit_length {sep : Str} (hsep : sep ≠ []) (k : Nat) (s : Str) :
    (genSplit s sep k).length = Count s sep + 1 := by
  refine split_induction hsep (fun s => (genSplit s sep k).length = Count s sep + 1) ?_ ?_ s
  · intro s h
    simp [genSplit_none k hsep h, Count_none hsep h]
  · intro s m h ih
    simp [genSplit_some k hsep h, Count_some hsep h, ih]

theorem genSplit_ne_nil {sep : Str} (hsep : sep ≠ []) (k : Nat) (s : Str) :
    genSplit s sep k ≠ [] := by
  intro h
  have := genSplit_length hsep k s
  rw [h] at this
  simp at this

theorem Join_cons_of_ne_nil (a : Str) (l : List Str) (sep : Str) (hl : l ≠ []) :
    Join (a :: l) sep = a ++ sep ++ Join l sep := by
  cases l with
  | nil => exact absurd rfl hl
  | cons b rest => rfl

theorem Join_nil_sep (l : List Str) : Join l [] = l.flatten := by
  induction l with
  | nil => rfl
  | cons a l ih =>
    cases l with
    | nil => simp [Join]
    | cons b rest => simp [Join, ← ih]

/-- Joining the pieces of `Split` with the separator gives the string back. -/
theorem Join_Split {sep : Str} (hsep : sep ≠ []) (s : Str) : Join (Split s sep) sep = s := by
  refine split_induction hsep (fun s => Join (Split s sep) sep = s) ?_ ?_ s
  · intro s h
    simp [Split, genSplit_none 0 hsep h, Join]
  · intro s m h ih
    simp only [Split] at ih ⊢
    rw [genSplit_some 0 hsep h, Join_cons_of_ne_nil _ _ _ (genSplit_ne_nil hsep 0 _), ih]
    exact (Index_some_split h).1.symm

/-- The pieces of `SplitAfter` put one behind the other give the string back. -/
theorem Join_SplitAfter (s sep : Str) : Join (SplitAfter s sep) [] = s := by
  rw [Join_nil_sep]
  by_cases hsep : sep = []
  · subst hsep
    simp only [SplitAfter, genSplit, if_true, explode]
    induction s with
    | nil => rfl
    | cons c cs ih => simp [ih]
  · refine split_induction hsep (fun s => (SplitAfter s sep).flatten = s) ?_ ?_ s
    · intro s h
      simp [SplitAfter, genSplit_none _ hsep h]
    · intro s m h ih
      simp only [SplitAfter] at ih ⊢
      rw [genSplit_some _ hsep h, List.flatten_cons, ih]
      exact List.take_append_drop _ _

theorem Count_eq_zero_iff {sep : Str} (hsep : sep ≠ []) (s : Str) :
    Count s sep = 0 ↔ ¬ sep <:+: s := by
  rw [← Index_none_iff]
  cases h : Index s sep with
  | none => simp [Count_none hsep h]
  | some m => simp [Count_some hsep h]

/-- The separator is counted once exactly when the string is `front`, the
separator, `body`, with no occurrence that starts inside `front` and none inside
`body`. -/
theorem Count_eq_one_iff {sep : Str} (hsep : sep ≠ []) (s : Str) :
    Count s sep = 1 ↔ ∃ front body, s = front ++ sep ++ body ∧
      ¬ sep <:+: front ++ sep.dropLast ∧ ¬ sep <:+: body := by
  constructor
  · intro h
    cases hI : Index s sep with
    | none => rw [Count_none hsep hI] at h; omega
    | some m =>
      rw [Count_some hsep hI] at h
      refine ⟨s.take m, s.drop (m + sep.length), (Index_some_split hI).1,
        Index_some_minimal hsep hI, ?_⟩
      exact (Count_eq_zero_iff hsep _).1 (by omega)
  · rintro ⟨front, body, rfl, h1, h2⟩
    have hI := Index_first (b := body) hsep h1
    rw [Count_some hsep hI]
    have : List.drop (front.length + sep.length) (front ++ sep ++ body) = body := by
      rw [← List.length_append]; exact List.drop_left _ _
    rw [this, (Count_eq_zero_iff hsep _).2 h2]

/-! ## Facts about the context -/

theorem mapGet_mapDelete_same (d : Ctx) (k : Str) : mapGet (mapDelete d k) k = none := by
  induction d with
  | nil => rfl
  | cons p rest ih =>
    obtain ⟨k', v⟩ := p
    by_cases h : k' = k
    · simpa [mapDelete, List.filter_cons, h] using ih
    · simpa [mapDelete, List.filter_cons, h, mapGet] using ih

theorem mapGet_mapDelete_other (d : Ctx) {k k' : Str} (hk : k' ≠ k) :
    mapGet (mapDelete d k) k' = mapGet d k' := by
  induction d with
  | nil => rfl
  | cons p rest ih =>
    obtain ⟨k'', v⟩ := p
    by_cases h : k'' = k
    · subst h
      have : ¬ k'' = k' := fun e => hk e.symm
      simpa [mapDelete, List.filter_cons, mapGet, this] using ih
    · by_cases h2 : k'' = k'
      · subst h2
        simp [mapDelete, List.filter_cons, h, mapGet]
      · simpa [mapDelete, List.filter_cons, h, mapGet, h2] using ih

theorem mapGet_mapSet_same (d : Ctx) (k : Str) (v : Value) :
    mapGet (mapSet d k v) k = some v := by
  simp [mapSet, mapGet]

theorem mapGet_mapSet_other (d : Ctx) (v : Value) {k k' : Str} (hk : k' ≠ k) :
    mapGet (mapSet d k v) k' = mapGet d k' := by
  have : ¬ k = k' := fun e => hk e.symm
  simp [mapSet, mapGet, this, mapGet_mapDelete_other d hk]

/-! ## Facts about `parseConfig` -/

theorem singleton_infix_iff (c : Char) (s : Str) : [c] <:+: s ↔ c ∈ s := by
  constructor
  · rintro ⟨a, b, rfl⟩
    simp
  · intro h
    obtain ⟨a, b, rfl⟩ := List.append_of_mem h
    exact ⟨a, b, by simp⟩

/-- A segment with a colon is cut at its first colon. -/
theorem Split_first (c : Char) (pre post : Str) (hpre : c ∉ pre) :
    Split (pre ++ c :: post) [c] = pre :: Split post [c] := by
  have hI : Index (pre ++ [c] ++ post) [c] = some pre.length :=
    Index_first (by simp) (by simpa [singleton_infix_iff] using hpre)
  have e : pre ++ c :: post = pre ++ [c] ++ post := by simp
  rw [e]
  simp only [Split]
  rw [genSplit_some 0 (by simp) hI]
  congr 1
  · simp
  · have : List.drop (pre.length + [c].length) (pre ++ [c] ++ post) = post := by
      rw [← List.length_append]; exact List.drop_left _ _
    rw [this]

/-- A segment without the separator is one piece. -/
theorem Split_absent (c : Char) (s : Str) (hs : c ∉ s) : Split s [c] = [s] := by
  have hI : Index s [c] = none := by
    rw [Index_none_iff, singleton_infix_iff]; exact hs
  simp only [Split]
  exact genSplit_none 0 (by simp) hI

theorem lineKey_colon (pre post : Str) (hpre : ':' ∉ pre) :
    lineKey (pre ++ ':' :: post) = TrimSpace pre := by
  have := Split_first ':' pre post hpre
  simp only [lineKey]
  rw [show ":".toList = [':'] from rfl, this]
  rfl

theorem lineValue_colon (pre post : Str) (hpre : ':' ∉ pre) :
    lineValue (pre ++ ':' :: post) = TrimSpace post := by
  have := Split_first ':' pre post hpre
  simp only [lineValue]
  rw [show ":".toList = [':'] from rfl, this, List.tail_cons, Join_Split (by simp)]

/-- One round of the loop of `parseConfig` on a non-empty segment. -/
theorem parseConfigLoop_cons (line : Str) (rest : List Str) (params : Ctx) (h : line ≠ []) :
    parseConfigLoop (line :: rest) params
      = parseConfigLoop rest (mapSet params (lineKey line) (Value.str (lineValue line))) := by
  have hne : Split line ":".toList ≠ [] := genSplit_ne_nil (by decide) 0 line
  simp only [parseConfigLoop, h, if_false, lineKey, lineValue]
  cases hS : Split line ":".toList with
  | nil => exact absurd hS hne
  | cons l0 l1 => rfl

/-- The loop of `parseConfig` always returns a mapping. -/
theorem parseConfigLoop_total (vars : List Str) (params : Ctx) :
    ∃ d, parseConfigLoop vars params = some d := by
  induction vars generalizing params with
  | nil => exact ⟨params, rfl⟩
  | cons line rest ih =>
    by_cases h : line = []
    · exact ⟨params, by simp [parseConfigLoop, h]⟩
    · rw [parseConfigLoop_cons line rest params h]
      exact ih _

/-- The loop of `parseConfig` runs through segments that are all non-empty and
goes on with what follows them. -/
theorem parseConfigLoop_append (before after : List Str) (params : Ctx)
    (hbefore : ∀ seg ∈ before, seg ≠ []) :
    ∃ d, parseConfigLoop before params = some d ∧
      parseConfigLoop (before ++ after) params = parseConfigLoop after d := by
  induction before generalizing params with
  | nil => exact ⟨params, rfl, rfl⟩
  | cons line rest ih =>
    have h : line ≠ [] := hbefore line (List.mem_cons_self _ _)
    rw [List.cons_append, parseConfigLoop_cons line _ params h,
      parseConfigLoop_cons line _ params h]
    exact ih _ (fun seg hseg => hbefore seg (List.mem_cons_of_mem _ hseg))

/-- A key that no segment carries keeps its binding. -/
theorem parseConfigLoop_other (vars : List Str) (params d : Ctx) (k : Str)
    (hk : ∀ seg ∈ vars, lineKey seg ≠ k) (h : parseConfigLoop vars params = some d) :
    mapGet d k = mapGet params k := by
  induction vars generalizing params with
  | nil => simp [parseConfigLoop] at h; rw [← h]
  | cons line rest ih =>
    by_cases hl : line = []
    · simp [parseConfigLoop, hl] at h; rw [← h]
    · rw [parseConfigLoop_cons line rest params hl] at h
      rw [ih _ (fun seg hseg => hk seg (List.mem_cons_of_mem _ hseg)) h]
      exact mapGet_mapSet_other _ _ (fun e => hk line (List.mem_cons_self _ _) e.symm)

theorem parseConfig_total (conf : Str) (params : Ctx) (sep : Str) :
    ∃ d, parseConfig conf params sep = some d :=
  parseConfigLoop_total _ _

theorem parseConfigLoop_empties (n : Nat) (d : Ctx) :
    parseConfigLoop (List.replicate n []) d = some d := by
  cases n with
  | zero => rfl
  | succ n => simp [List.replicate_succ, parseConfigLoop]

/-! ## The separator check -/

/-- A text in which the separator is counted once splits into the two parts around
that occurrence. -/
theorem Split_of_Count_one {sep : Str} (hsep : sep ≠ []) (text : Str)
    (h : Count text sep = 1) :
    ∃ front body, Split text sep = [front, body] ∧ text = front ++ sep ++ body ∧
      ¬ sep <:+: front ++ sep.dropLast ∧ ¬ sep <:+: body := by
  obtain ⟨front, body, rfl, h1, h2⟩ := (Count_eq_one_iff hsep text).1 h
  refine ⟨front, body, ?_, rfl, h1, h2⟩
  have hI := Index_first (b := body) hsep h1
  have hd : List.drop (front.length + sep.length) (front ++ sep ++ body) = body := by
    rw [← List.length_append]; exact List.drop_left _ _
  have ht : List.take (front.length + 0) (front ++ sep ++ body) = front := by
    rw [List.append_assoc, Nat.add_zero]; exact List.take_left _ _
  simp only [Split]
  rw [genSplit_some 0 hsep hI, hd, ht,
    genSplit_none 0 hsep ((Index_none_iff _ _).2 h2)]

theorem docContext_of_split {FS : Type} (w : World FS) (fl : Flags) (d : Ctx) (text : Str)
    (front body : Str) (h : Split text fl.seperator = [front, body]) :
    ∃ d1, parseConfig front d "\n".toList = some d1 ∧
      docContext w fl d text
        = Except.ok (mapSet d1 "Post".toList (Value.str (w.markdown body))) := by
  obtain ⟨d1, hd1⟩ := parseConfig_total front d "\n".toList
  exact ⟨d1, hd1, by simp only [docContext, h, hd1]⟩

theorem docContext_of_length_ne {FS : Type} (w : World FS) (fl : Flags) (d : Ctx) (text : Str)
    (h : (Split text fl.seperator).length ≠ 2) :
    docContext w fl d text = Except.error formatError := by
  unfold docContext
  split
  · rename_i front body hS
    rw [hS] at h
    simp at h
  · rfl

/-- C1: for a non-empty separator, a round of the loop of `main` gets past the
separator check exactly when the separator is counted once in the text of the
document (occurrences are counted as `strings.Count` counts them: from the left,
each one starting behind the one before).  Then the split yields the two parts
front-matter and body, the text being front-matter, separator, body with no
other occurrence that starts inside the front-matter or lies inside the body.
Otherwise the round ends with the fatal error and leaves the context, the
summaries and the file system as they were before the document. -/
theorem separator_exactly_once {FS : Type} (w : World FS) (fl : Flags) (st : State FS)
    (name text : Str) (hsep : fl.seperator ≠ []) :
    ((∃ d1, docContext w fl st.d text = Except.ok d1) ↔ Count text fl.seperator = 1) ∧
    (Count text fl.seperator = 1 →
      ∃ front body, Split text fl.seperator = [front, body] ∧
        text = front ++ fl.seperator ++ body ∧
        ¬ fl.seperator <:+: front ++ fl.seperator.dropLast ∧ ¬ fl.seperator <:+: body) ∧
    (Count text fl.seperator ≠ 1 → runDoc w fl st name text = (some formatError, st)) := by
  have hlen := genSplit_length hsep 0 text
  have hbad : Count text fl.seperator ≠ 1 →
      docContext w fl st.d text = Except.error formatError := by
    intro h
    apply docContext_of_length_ne
    simp only [Split]
    omega
  refine ⟨⟨?_, ?_⟩, Split_of_Count_one hsep text, ?_⟩
  · rintro ⟨d1, hd1⟩
    by_contra h
    rw [hbad h] at hd1
    cases hd1
  · intro h
    obtain ⟨front, body, hS, -⟩ := Split_of_Count_one hsep text h
    obtain ⟨d1, -, hd1⟩ := docContext_of_split w fl st.d text front body hS
    exact ⟨_, hd1⟩
  · intro h
    simp only [runDoc, hbad h]

/-- C1, at a document with the separator twice: the run fails and nothing has
changed. -/
theorem separator_exactly_once_witness :
    defaultFlags.seperator ≠ [] ∧
    Count "Title: T\n-----\nbody\n-----\n".toList defaultFlags.seperator ≠ 1 ∧
    runDoc demoWorld defaultFlags { d := [], posts := [], fs := [] } "a.md".toList
      "Title: T\n-----\nbody\n-----\n".toList
      = (some formatError, { d := [], posts := [], fs := [] }) :=
  ⟨by decide, by decide,
    (separator_exactly_once demoWorld defaultFlags { d := [], posts := [], fs := [] }
      "a.md".toList "Title: T\n-----\nbody\n-----\n".toList (by decide)).2.2 (by decide)⟩

/-! ## The config-string parser -/

/-- What the loop does with a segment it reaches: for a segment of the block that
contains a colon and has no empty segment before it, `parseConfig` cuts the
segment at its first colon only (the text behind it, later colons included, is
joined back unchanged) and, in the mapping that the segments before it have
produced, binds the trimmed text before the first colon to the trimmed text
behind it; then it goes on with the segments that follow. -/
theorem parseConfig_first_colon (conf sep : Str) (params : Ctx) (before after : List Str)
    (pre post : Str)
    (hsplit : Split conf sep = before ++ (pre ++ ':' :: post) :: after)
    (hbefore : ∀ seg ∈ before, seg ≠ [])
    (hpre : ':' ∉ pre) :
    Split (pre ++ ':' :: post) ":".toList = pre :: Split post ":".toList ∧
    Join (Split post ":".toList) ":".toList = post ∧
    ∃ d, parseConfigLoop before params = some d ∧
      parseConfig conf params sep
        = parseConfigLoop after (mapSet d (TrimSpace pre) (Value.str (TrimSpace post))) := by
  refine ⟨Split_first ':' pre post hpre, Join_Split (by decide) post, ?_⟩
  obtain ⟨d, hd, happ⟩ := parseConfigLoop_append before ((pre ++ ':' :: post) :: after)
    params hbefore
  refine ⟨d, hd, ?_⟩
  rw [parseConfig, hsplit, happ, parseConfigLoop_cons _ _ _ (by simp),
    lineKey_colon pre post hpre, lineValue_colon pre post hpre]

/-- An example: at the segment `Published: 2024-01-02 10:30` behind the segment
`Title: T` the key `Published` gets the value `2024-01-02 10:30`. -/
theorem parseConfig_first_colon_example :
    (Split "Title: T\nPublished: 2024-01-02 10:30".toList "\n".toList
        = ["Title: T".toList] ++ ("Published".toList ++ ':' :: " 2024-01-02 10:30".toList) :: [] ∧
      (∀ seg ∈ ["Title: T".toList], seg ≠ []) ∧ ':' ∉ "Published".toList) ∧
    parseConfig "Title: T\nPublished: 2024-01-02 10:30".toList [] "\n".toList
      = some [("Published".toList, Value.str "2024-01-02 10:30".toList),
          ("Title".toList, Value.str "T".toList)] := by
  have h1 : Split "Title: T\nPublished: 2024-01-02 10:30".toList "\n".toList
      = ["Title: T".toList] ++ ("Published".toList ++ ':' :: " 2024-01-02 10:30".toList) :: [] := by
    decide
  have h2 : ∀ seg ∈ ["Title: T".toList], seg ≠ [] := by decide
  have h3 : ':' ∉ "Published".toList := by decide
  obtain ⟨-, -, d, hd, h⟩ := parseConfig_first_colon
    "Title: T\nPublished: 2024-01-02 10:30".toList "\n".toList [] ["Title: T".toList] []
    "Published".toList " 2024-01-02 10:30".toList h1 h2 h3
  refine ⟨⟨h1, h2, h3⟩, ?_⟩
  rw [h]
  have hd2 : parseConfigLoop ["Title: T".toList] []
      = some [("Title".toList, Value.str "T".toList)] := by decide
  rw [hd2] at hd
  cases hd
  decide

/-- C3: a segment behind an empty segment is not cut and not inserted.  In the
block made of an empty line and the line `A: 1` the segment `A: 1` is not empty
and has a colon, the loop returns at the empty segment before it, and the
mapping is still empty after the call: the key `A` is not bound to `1`. -/
theorem parseConfig_segment_behind_empty :
    "A: 1".toList ∈ Split "\nA: 1".toList "\n".toList ∧
    "A: 1".toList ≠ [] ∧ ':' ∈ "A: 1".toList ∧
    parseConfig "\nA: 1".toList [] "\n".toList = some [] ∧
    (parseConfig "\nA: 1".toList [] "\n".toList).bind (fun d => mapGet d "A".toList)
      ≠ some (Value.str "1".toList) := by
  decide

/-- C4: the code returns at the first empty segment.  In the block `A: 1`, empty
line, `B: 2` the segment `B: 2` comes after the empty one, and after the call
the mapping holds the key `A` only. -/
theorem parseConfig_stops_at_empty_segment :
    "B: 2".toList ∈ Split "A: 1\n\nB: 2".toList "\n".toList ∧
    parseConfig "A: 1\n\nB: 2".toList [] "\n".toList
      = some [("A".toList, Value.str "1".toList)] ∧
    (parseConfig "A: 1\n\nB: 2".toList [] "\n".toList).bind
      (fun d => mapGet d "B".toList) = none := by
  decide

/-- One call of `parseConfig` on a block with no empty segment before its last
non-empty segment: the last segment with a key gives the key its value, and the
keys of no segment keep their bindings. -/
theorem parseConfig_block (conf sep : Str) (params : Ctx) (segs : List Str) (n : Nat)
    (hsplit : Split conf sep = segs ++ List.replicate n [])
    (hsegs : ∀ seg ∈ segs, seg ≠ []) :
    ∃ d, parseConfig conf params sep = some d ∧
      (∀ l1 seg l2, segs = l1 ++ seg :: l2 → (∀ s ∈ l2, lineKey s ≠ lineKey seg) →
        mapGet d (lineKey seg) = some (Value.str (lineValue seg))) ∧
      (∀ k, (∀ seg ∈ segs, lineKey seg ≠ k) → mapGet d k = mapGet params k) := by
  obtain ⟨d, hd, happ⟩ := parseConfigLoop_append segs (List.replicate n []) params hsegs
  rw [parseConfigLoop_empties] at happ
  refine ⟨d, by rw [parseConfig, hsplit, happ], ?_, ?_⟩
  · intro l1 seg l2 hl hlast
    subst hl
    obtain ⟨d1, -, happ1⟩ := parseConfigLoop_append l1 (seg :: l2) params
      (fun s hs => hsegs s (List.mem_append_left _ hs))
    rw [hd, parseConfigLoop_cons seg l2 d1 (hsegs seg (by simp))] at happ1
    rw [parseConfigLoop_other l2 _ d (lineKey seg) hlast happ1.symm]
    exact mapGet_mapSet_same _ _ _
  · intro k hk
    exact parseConfigLoop_other segs params d k hk hd

/-! ## The filename transformer -/

theorem SplitAfter_first (c : Char) (pre post : Str) (hpre : c ∉ pre) :
    SplitAfter (pre ++ c :: post) [c] = (pre ++ [c]) :: SplitAfter post [c] := by
  have hI : Index (pre ++ [c] ++ post) [c] = some pre.length :=
    Index_first (by simp) (by simpa [singleton_infix_iff] using hpre)
  have e : pre ++ c :: post = pre ++ [c] ++ post := by simp
  rw [e]
  simp only [SplitAfter]
  rw [genSplit_some _ (by simp) hI]
  congr 1
  · rw [← List.length_append]; exact List.take_left _ _
  · have : List.drop (pre.length + [c].length) (pre ++ [c] ++ post) = post := by
      rw [← List.length_append]; exact List.drop_left _ _
    rw [this]

theorem SplitAfter_absent (c : Char) (s : Str) (hs : c ∉ s) : SplitAfter s [c] = [s] := by
  have hI : Index s [c] = none := by
    rw [Index_none_iff, singleton_infix_iff]; exact hs
  simp only [SplitAfter]
  exact genSplit_none _ (by simp) hI

theorem SplitAfter_ne_nil (c : Char) (s : Str) : SplitAfter s [c] ≠ [] :=
  genSplit_ne_nil (by simp) _ s

/-- All pieces of `SplitAfter` but the last, put together, are the string up to
and including the last separator character. -/
theorem SplitAfter_dropLast (c : Char) (pre suf : Str) (hsuf : c ∉ suf) :
    ∀ acc : Str, c ∉ acc →
      (SplitAfter (acc ++ pre ++ c :: suf) [c]).dropLast.flatten = acc ++ pre ++ [c] := by
  induction pre with
  | nil =>
    intro acc hacc
    rw [List.append_nil, SplitAfter_first c acc suf hacc, SplitAfter_absent c suf hsuf]
    simp
  | cons x pre ih =>
    intro acc hacc
    by_cases hx : x = c
    · subst hx
      have e : acc ++ x :: pre ++ x :: suf = acc ++ x :: ([] ++ pre ++ x :: suf) := by simp
      rw [e, SplitAfter_first x acc _ hacc,
        List.dropLast_cons_of_ne_nil (SplitAfter_ne_nil x _), List.flatten_cons,
        ih [] (by simp)]
      simp
    · have e : acc ++ x :: pre ++ c :: suf = (acc ++ [x]) ++ pre ++ c :: suf := by simp
      have hacc2 : c ∉ acc ++ [x] := by
        simp only [List.mem_append, List.mem_singleton, not_or]
        exact ⟨hacc, fun h => hx h.symm⟩
      rw [e, ih (acc ++ [x]) hacc2]
      simp

/-- A string with the character `c` is cut at the last `c`. -/
theorem exists_last_occurrence (c : Char) (s : Str) (h : c ∈ s) :
    ∃ pre suf, s = pre ++ c :: suf ∧ c ∉ suf := by
  induction s with
  | nil => simp at h
  | cons x xs ih =>
    by_cases hxs : c ∈ xs
    · obtain ⟨pre, suf, rfl, hsuf⟩ := ih hxs
      exact ⟨x :: pre, suf, rfl, hsuf⟩
    · have hx : c = x := by
        rcases List.mem_cons.1 h with h1 | h1
        · exact h1
        · exact absurd h1 hxs
      subst hx
      exact ⟨[], xs, rfl, hxs⟩

/-- C6: for a filename with a dot and any new extension, `changeExtension` returns
the filename up to and including its last dot, followed by the new extension;
`post.md` with `html` gives `post.html` and `a.b.md` with `html` gives
`a.b.html`. -/
theorem changeExtension_last_dot (filename newExtension : Str) (h : '.' ∈ filename) :
    (∃ pre suf, filename = pre ++ '.' :: suf ∧ '.' ∉ suf ∧
      changeExtension filename newExtension = some (pre ++ '.' :: newExtension)) ∧
    changeExtension "post.md".toList "html".toList = some "post.html".toList ∧
    changeExtension "a.b.md".toList "html".toList = some "a.b.html".toList := by
  refine ⟨?_, by decide, by decide⟩
  obtain ⟨pre, suf, rfl, hsuf⟩ := exists_last_occurrence '.' filename h
  refine ⟨pre, suf, rfl, hsuf, ?_⟩
  have hd := SplitAfter_dropLast '.' pre suf hsuf [] (by simp)
  simp only [List.nil_append] at hd
  have hne : (SplitAfter (pre ++ '.' :: suf) ".".toList).length ≠ 0 := by
    rw [Ne, List.length_eq_zero]
    exact SplitAfter_ne_nil '.' _
  simp only [changeExtension, hne, if_false, Join_nil_sep]
  rw [show ".".toList = ['.'] from rfl, hd]
  simp

/-- C6, at the filename `index.tar.gz`. -/
theorem changeExtension_last_dot_witness :
    '.' ∈ "index.tar.gz".toList ∧
    ∃ pre suf, "index.tar.gz".toList = pre ++ '.' :: suf ∧ '.' ∉ suf ∧
      changeExtension "index.tar.gz".toList "html".toList = some (pre ++ '.' :: "html".toList) :=
  ⟨by decide, (changeExtension_last_dot "index.tar.gz".toList "html".toList (by decide)).1⟩

/-- C7: for the filename `README`, which has no dot, the code returns the new
extension alone, `html`: the name is dropped, not kept as the base. -/
theorem changeExtension_without_dot :
    '.' ∉ "README".toList ∧
    changeExtension "README".toList "html".toList = some "html".toList ∧
    changeExtension "README".toList "html".toList ≠ some ("README".toList ++ "html".toList) := by
  decide

/-! ## The truncator -/

/-- C8: for a count `N ≥ 0`, with the fragments of `s` being the pieces of
`strings.SplitAfter(s, "</p>")`: when there are fewer fragments than `N`,
`truncate` returns `s`; otherwise it returns the first `N` fragments put one
behind the other and nothing else; with exactly `N` fragments that is `s`
again. -/
theorem truncate_fragments (s : Str) (N : Int) (hN : 0 ≤ N) :
    (((SplitAfter s "</p>".toList).length : Int) < N → truncate s N = some s) ∧
    (N ≤ ((SplitAfter s "</p>".toList).length : Int) →
      truncate s N = some ((SplitAfter s "</p>".toList).take N.toNat).flatten) ∧
    (((SplitAfter s "</p>".toList).length : Int) = N → truncate s N = some s) := by
  have hmid : N ≤ ((SplitAfter s "</p>".toList).length : Int) →
      truncate s N = some ((SplitAfter s "</p>".toList).take N.toNat).flatten := by
    intro h
    have h1 : ¬ ((SplitAfter s "</p>".toList).length : Int) < N := by omega
    have h2 : ¬ N < 0 := by omega
    simp only [truncate, h1, h2, if_false, Join_nil_sep]
  refine ⟨?_, hmid, ?_⟩
  · intro h
    simp only [truncate, h, if_true]
  · intro h
    rw [hmid (by omega), ← h, Int.toNat_ofNat, List.take_length, ← Join_nil_sep,
      Join_SplitAfter]

/-- C8, at a text of two paragraphs and the count 1. -/
theorem truncate_fragments_witness :
    (0 : Int) ≤ 1 ∧
    (SplitAfter "<p>a</p><p>b</p>".toList "</p>".toList).length = 3 ∧
    truncate "<p>a</p><p>b</p>".toList 1 = some "<p>a</p>".toList := by
  refine ⟨by decide, by decide, ?_⟩
  rw [(truncate_fragments "<p>a</p><p>b</p>".toList 1 (by decide)).2.1 (by decide)]
  decide

/-! ## The template compositor -/

/-- C9: when the content template renders to `c` on the mapping and the base
template renders to `out` on the mapping with `Content` set to `c`,
`generateHtml` returns `out` without an error, and the mapping after the call
is the mapping with `Content` set to `c`: reading `Content` gives the render of
the content template, made before the base template was rendered. -/
theorem generateHtml_composes {FS : Type} (w : World FS) (baseTmpl tmpl : Str) (params : Ctx)
    (c out : Str)
    (hcontent : parseTemplate w tmpl params = Except.ok c)
    (hbase : parseTemplate w baseTmpl (mapSet params "Content".toList (Value.str c))
      = Except.ok out) :
    generateHtml w baseTmpl tmpl params
      = ((out, none), mapSet params "Content".toList (Value.str c)) ∧
    mapGet (generateHtml w baseTmpl tmpl params).2 "Content".toList = some (Value.str c) := by
  have h : generateHtml w baseTmpl tmpl params
      = ((out, none), mapSet params "Content".toList (Value.str c)) := by
    simp only [generateHtml, hcontent, hbase]
  exact ⟨h, by rw [h]; exact mapGet_mapSet_same _ _ _⟩

/-- C9, in the example world, where a template renders to its name followed by
the `Content` it is given. -/
theorem generateHtml_composes_witness :
    (parseTemplate demoWorld "post.html".toList [] = Except.ok "post.html".toList ∧
      parseTemplate demoWorld "base.html".toList
        (mapSet [] "Content".toList (Value.str "post.html".toList))
        = Except.ok "base.html|post.html".toList) ∧
    generateHtml demoWorld "base.html".toList "post.html".toList []
      = (("base.html|post.html".toList, none),
          mapSet [] "Content".toList (Value.str "post.html".toList)) ∧
    mapGet (generateHtml demoWorld "base.html".toList "post.html".toList []).2
      "Content".toList = some (Value.str "post.html".toList) :=
  ⟨⟨rfl, rfl⟩,
    generateHtml_composes demoWorld "base.html".toList "post.html".toList []
      "post.html".toList "base.html|post.html".toList rfl rfl⟩

/-! ## The layout override -/

theorem generateHtml_other {FS : Type} (w : World FS) (baseTmpl tmpl : Str) (params : Ctx)
    (k : Str) (hk : k ≠ "Content".toList) :
    mapGet (generateHtml w baseTmpl tmpl params).2 k = mapGet params k := by
  unfold generateHtml
  cases parseTemplate w tmpl params with
  | error err => rfl
  | ok base =>
    simp only
    cases parseTemplate w baseTmpl (mapSet params "Content".toList (Value.str base)) with
    | error err => exact mapGet_mapSet_other _ _ hk
    | ok content => exact mapGet_mapSet_other _ _ hk

/-- After the layout step the context holds no `Layout` key. -/
theorem composePost_no_layout {FS : Type} (w : World FS) (fl : Flags) (d : Ctx) :
    mapGet (composePost w fl d).2.2 "Layout".toList = none := by
  unfold composePost
  split
  · exact mapGet_mapDelete_same _ _
  · rename_i h
    simp only
    rw [generateHtml_other w _ _ d _ (by decide)]
    exact h

/-- With a `Layout` in the context the page is composed from the named file of
the layout folder. -/
theorem composePost_custom {FS : Type} (w : World FS) (fl : Flags) (d : Ctx) (v : Value)
    (h : mapGet d "Layout".toList = some v) :
    (composePost w fl d).2.1
      = (generateHtml w (baseTemplate w fl) (joinPath (layoutPath w fl) (fmtValue v)) d).1.1 := by
  simp only [composePost, h]

/-- With no `Layout` in the context the page is composed from the default post
template. -/
theorem composePost_default {FS : Type} (w : World FS) (fl : Flags) (d : Ctx)
    (h : mapGet d "Layout".toList = none) :
    (composePost w fl d).2.1
      = (generateHtml w (baseTemplate w fl) (postTemplate w fl) d).1.1 := by
  simp only [composePost, h]

/-- A round that ends without a failure leaves the context of its layout step. -/
theorem runDoc_context {FS : Type} (w : World FS) (fl : Flags) (st st1 : State FS)
    (name text : Str) (h : runDoc w fl st name text = (none, st1)) :
    ∃ d1, docContext w fl st.d text = Except.ok d1 ∧ st1.d = (composePost w fl d1).2.2 := by
  unfold runDoc at h
  split at h
  · simp at h
  · rename_i d1 hd1
    refine ⟨d1, hd1, ?_⟩
    simp only at h
    split at h
    · simp at h
    · split at h
      · simp at h
      · split at h
        · simp at h
        · simp only [Prod.mk.injEq, true_and] at h
          rw [← h]

/-- A round of the loop that ends without a failure leaves a context with no
`Layout` key. -/
theorem runDoc_no_layout {FS : Type} (w : World FS) (fl : Flags) (st st1 : State FS)
    (name text : Str) (h : runDoc w fl st name text = (none, st1)) :
    mapGet st1.d "Layout".toList = none := by
  obtain ⟨d1, -, hd⟩ := runDoc_context w fl st st1 name text h
  rw [hd]
  exact composePost_no_layout w fl d1

/-- The override is used once: after a round of the loop that ends without a
failure, the page of the next document, whose front-matter has no segment with
the key `Layout`, is composed from the default post template. -/
theorem layout_used_once {FS : Type} (w : World FS) (fl : Flags) (st0 st1 : State FS)
    (name1 text1 text2 front2 body2 : Str)
    (hrun : runDoc w fl st0 name1 text1 = (none, st1))
    (hsplit : Split text2 fl.seperator = [front2, body2])
    (hno : ∀ seg ∈ Split front2 "\n".toList, lineKey seg ≠ "Layout".toList) :
    ∃ d2, docContext w fl st1.d text2 = Except.ok d2 ∧
      (composePost w fl d2).2.1
        = (generateHtml w (baseTemplate w fl) (postTemplate w fl) d2).1.1 := by
  obtain ⟨c2, hc2, hd2⟩ := docContext_of_split w fl st1.d text2 front2 body2 hsplit
  refine ⟨_, hd2, composePost_default w fl _ ?_⟩
  rw [mapGet_mapSet_other _ _ (by decide)]
  rw [parseConfigLoop_other _ _ _ _ hno hc2]
  exact runDoc_no_layout w fl st0 st1 name1 text1 hrun

/-- C10: a document whose front-matter sets `Layout: special.html` behind an empty
line is composed with the default post template, not with the named layout:
the loop of `parseConfig` returns at the empty line and never reads the
`Layout` line.  Without the empty line the same document is composed with
`special.html`. -/
theorem layout_behind_empty_line :
    "Layout: special.html".toList ∈
      Split "Title: T\nPublished: 2024-01-02\nAuthor: A\n\nLayout: special.html\n".toList
        "\n".toList ∧
    (runDoc demoWorld defaultFlags { d := [], posts := [], fs := [] } "a.md".toList
      "Title: T\nPublished: 2024-01-02\nAuthor: A\n\nLayout: special.html\n-----\nbody".toList).1
      = none ∧
    (runDoc demoWorld defaultFlags { d := [], posts := [], fs := [] } "a.md".toList
      "Title: T\nPublished: 2024-01-02\nAuthor: A\n\nLayout: special.html\n-----\nbody".toList).2.fs
      = [("/site/output/a.html".toList,
          "/site/layouts/base.html|/site/layouts/post.html".toList)] ∧
    (runDoc demoWorld defaultFlags { d := [], posts := [], fs := [] } "a.md".toList
      "Title: T\nPublished: 2024-01-02\nAuthor: A\nLayout: special.html\n-----\nbody".toList).2.fs
      = [("/site/output/a.html".toList,
          "/site/layouts/base.html|/site/layouts/special.html".toList)] := by
  decide

/-! ## The order of the index -/

theorem bytesCompare_swap (a b : List Nat) : bytesCompare b a = - bytesCompare a b := by
  induction a generalizing b with
  | nil => cases b <;> simp [bytesCompare]
  | cons x xs ih =>
    cases b with
    | nil => simp [bytesCompare]
    | cons y ys =>
      simp only [bytesCompare]
      by_cases h1 : x < y
      · have h2 : ¬ y < x := by omega
        simp [h1, h2]
      · by_cases h2 : y < x
        · simp [h1, h2]
        · simp [h1, h2, ih]

theorem bytesCompare_trans (a b c : List Nat) (h1 : 0 ≤ bytesCompare a b)
    (h2 : 0 ≤ bytesCompare b c) : 0 ≤ bytesCompare a c := by
  induction a generalizing b c with
  | nil =>
    cases b with
    | nil => exact h2
    | cons y ys => simp [bytesCompare] at h1
  | cons x xs ih =>
    cases c with
    | nil => simp [bytesCompare]
    | cons z zs =>
      cases b with
      | nil => simp [bytesCompare] at h2
      | cons y ys =>
        simp only [bytesCompare] at h1 h2 ⊢
        by_cases hxy : x < y
        · simp [hxy] at h1
        · by_cases hyz : y < z
          · simp [hyz] at h2
          · have hxz : ¬ x < z := by omega
            simp only [hxz, if_false]
            by_cases hzx : z < x
            · simp [hzx]
            · have e1 : x = y := by
                by_contra hne
                have : y < x := by omega
                omega
              have hyx : ¬ y < x := by omega
              have hzy : ¬ z < y := by omega
              simp only [hxy, hyx, if_false] at h1
              simp only [hyz, hzy, if_false] at h2
              simp only [hzx, if_false]
              exact ih _ _ h1 h2

/-- What `Less` says, in terms of the two instants and the two titles. -/
theorem Less_iff (ci cj : Int) (p q : Post) :
    Less ci cj p q = true ↔
      parseTimeString cj q.Published < parseTimeString ci p.Published ∨
      (parseTimeString ci p.Published = parseTimeString cj q.Published ∧
        bytesCompare (toBytes p.Title) (toBytes q.Title) < 0) := by
  simp only [Less]
  by_cases h : parseTimeString ci p.Published = parseTimeString cj q.Published
  · simp [h]
  · simp only [h, if_false, decide_eq_true_eq, false_and, or_false]

theorem Less_asymm (now : Int) (p q : Post) (h : Less now now p q = true) :
    ¬ Less now now q p = true := by
  rw [Less_iff] at h ⊢
  have := bytesCompare_swap (toBytes p.Title) (toBytes q.Title)
  omega

theorem Less_negtrans (now : Int) (p q r : Post) (h1 : ¬ Less now now p q = true)
    (h2 : ¬ Less now now q r = true) : ¬ Less now now p r = true := by
  rw [Less_iff] at h1 h2 ⊢
  by_cases e1 : parseTimeString now p.Published = parseTimeString now q.Published
  · by_cases e2 : parseTimeString now q.Published = parseTimeString now r.Published
    · have s1 := bytesCompare_swap (toBytes p.Title) (toBytes q.Title)
      have s2 := bytesCompare_swap (toBytes q.Title) (toBytes r.Title)
      have s3 := bytesCompare_swap (toBytes p.Title) (toBytes r.Title)
      have t := bytesCompare_trans (toBytes p.Title) (toBytes q.Title) (toBytes r.Title)
        (by omega) (by omega)
      omega
    · omega
  · omega

/-- A Published string of ten or sixteen bytes is parsed without the clock. -/
theorem parseTimeString_dated (c1 c2 : Int) (ts : Str)
    (h : (toBytes ts).length = 10 ∨ (toBytes ts).length = 16) :
    parseTimeString c1 ts = parseTimeString c2 ts := by
  simp only [parseTimeString]
  rcases h with h | h
  · simp only [h, if_true]
  · have h10 : ¬ (toBytes ts).length = 10 := by omega
    simp only [h10, h, if_true, if_false]

/-- Two posts with no date, compared while the clock moves on: neither is less
than the other, whatever their titles. -/
theorem Less_undated (ci cj : Int) (p q : Post) (hc : ci < cj)
    (hp : (toBytes p.Published).length ≠ 10 ∧ (toBytes p.Published).length ≠ 16)
    (hq : (toBytes q.Published).length ≠ 10 ∧ (toBytes q.Published).length ≠ 16) :
    Less ci cj p q = false := by
  rw [Bool.eq_false_iff, Ne, Less_iff]
  simp only [parseTimeString, hp.1, hp.2, hq.1, hq.2, if_false]
  omega

/-- When the clock stands still, or both posts carry a date, every call of `Less`
answers as `Less` does at the one time `now`. -/
theorem lessAt_eq (clock : Nat → Int) (now : Int) (k : Nat) (p q : Post)
    (h : (∀ n, clock n = now) ∨
      (((toBytes p.Published).length = 10 ∨ (toBytes p.Published).length = 16) ∧
        ((toBytes q.Published).length = 10 ∨ (toBytes q.Published).length = 16))) :
    lessAt clock k p q = Less now now p q := by
  rcases h with h | ⟨hp, hq⟩
  · simp only [lessAt, h]
  · simp only [lessAt, Less]
    rw [parseTimeString_dated (clock (2 * k)) now _ hp,
      parseTimeString_dated (clock (2 * k + 1)) now _ hq]

theorem insertLeft_perm (cmp : Nat → Post → Post → Bool) (x : Post) (l : List Post) :
    ∀ k, (insertLeft cmp x l k).1.Perm (x :: l) := by
  induction l with
  | nil => intro k; exact List.Perm.refl _
  | cons y ys ih =>
    intro k
    simp only [insertLeft]
    split
    · exact (List.Perm.cons y (ih (k + 1))).trans (List.Perm.swap x y ys)
    · exact List.Perm.refl _

theorem insertLeft_sorted (cmp : Nat → Post → Post → Bool) (less : Post → Post → Bool)
    (S : List Post) (hc : ∀ k, ∀ a ∈ S, ∀ b ∈ S, cmp k a b = less a b)
    (hasymm : ∀ a b, less a b = true → ¬ less b a = true)
    (hneg : ∀ a b c, ¬ less a b = true → ¬ less b c = true → ¬ less a c = true)
    (x : Post) (hx : x ∈ S) (l : List Post) (hl : ∀ y ∈ l, y ∈ S)
    (h : l.Pairwise (fun y z => ¬ less y z = true)) :
    ∀ k, (insertLeft cmp x l k).1.Pairwise (fun y z => ¬ less y z = true) := by
  induction l with
  | nil => intro k; simp [insertLeft]
  | cons y ys ih =>
    intro k
    rw [List.pairwise_cons] at h
    have hy : y ∈ S := hl y (List.mem_cons_self _ _)
    have hys : ∀ z ∈ ys, z ∈ S := fun z hz => hl z (List.mem_cons_of_mem _ hz)
    simp only [insertLeft, hc k x hx y hy]
    split
    · rename_i hxy
      simp only
      rw [List.pairwise_cons]
      refine ⟨?_, ih hys h.2 (k + 1)⟩
      intro z hz
      rcases List.mem_cons.1 ((insertLeft_perm cmp x ys (k + 1)).subset hz) with rfl | hz
      · exact hasymm _ _ hxy
      · exact h.1 z hz
    · rename_i hxy
      simp only
      rw [List.pairwise_cons]
      refine ⟨?_, List.pairwise_cons.2 h⟩
      intro z hz
      rcases List.mem_cons.1 hz with rfl | hz
      · exact hxy
      · exact hneg x y z hxy (h.1 z hz)

theorem foldl_insertLeft (cmp : Nat → Post → Post → Bool) (less : Post → Post → Bool)
    (S : List Post) (hc : ∀ k, ∀ a ∈ S, ∀ b ∈ S, cmp k a b = less a b)
    (hasymm : ∀ a b, less a b = true → ¬ less b a = true)
    (hneg : ∀ a b c, ¬ less a b = true → ¬ less b c = true → ¬ less a c = true)
    (posts : List Post) (hposts : ∀ p ∈ posts, p ∈ S) :
    ∀ acc : List Post × Nat, (∀ y ∈ acc.1, y ∈ S) →
      acc.1.Pairwise (fun y z => ¬ less y z = true) →
      (posts.foldl (fun acc x => insertLeft cmp x acc.1 acc.2) acc).1.Perm
          (posts.reverse ++ acc.1) ∧
        (posts.foldl (fun acc x => insertLeft cmp x acc.1 acc.2) acc).1.Pairwise
          (fun y z => ¬ less y z = true) := by
  induction posts with
  | nil => intro acc _ h; exact ⟨by simp, h⟩
  | cons x xs ih =>
    intro acc hacc h
    have hx : x ∈ S := hposts x (List.mem_cons_self _ _)
    have hperm := insertLeft_perm cmp x acc.1 acc.2
    have hnext : ∀ y ∈ (insertLeft cmp x acc.1 acc.2).1, y ∈ S := by
      intro y hy
      rcases List.mem_cons.1 (hperm.subset hy) with rfl | hy
      · exact hx
      · exact hacc y hy
    obtain ⟨hp, hs⟩ := ih (fun p hp => hposts p (List.mem_cons_of_mem _ hp))
      (insertLeft cmp x acc.1 acc.2) hnext
      (insertLeft_sorted cmp less S hc hasymm hneg x hx acc.1 hacc h acc.2)
    refine ⟨?_, hs⟩
    rw [List.foldl_cons]
    refine hp.trans ?_
    rw [List.reverse_cons, List.append_assoc]
    exact List.Perm.append_left _ hperm

/-- The insertion sort keeps what package sort promises. -/
theorem insertionSort_sorts (cmp : Nat → Post → Post → Bool) (less : Post → Post → Bool)
    (posts : List Post) (hc : ∀ k, ∀ a ∈ posts, ∀ b ∈ posts, cmp k a b = less a b)
    (hasymm : ∀ a b, less a b = true → ¬ less b a = true)
    (hneg : ∀ a b c, ¬ less a b = true → ¬ less b c = true → ¬ less a c = true) :
    (insertionSort cmp posts).Perm posts ∧
      (insertionSort cmp posts).Pairwise (fun a b => ¬ less b a = true) := by
  obtain ⟨hp, hs⟩ := foldl_insertLeft cmp less posts hc hasymm hneg posts (fun p hp => hp)
    (([] : List Post), 0) (by simp) List.Pairwise.nil
  constructor
  · refine (List.reverse_perm _).trans (hp.trans ?_)
    rw [List.append_nil]
    exact List.reverse_perm _
  · rw [insertionSort, List.pairwise_reverse]
    exact hs

theorem insertionSort_SortsByLess : SortsByLess insertionSort :=
  fun cmp less posts hc hasymm hneg => insertionSort_sorts cmp less posts hc hasymm hneg

/-- The sorted posts are the posts, and no post is `Less` than one before it, when
the clock stands still at `now` or every post carries a date. -/
theorem sortPosts_pairwise {FS : Type} (w : World FS) (now : Int) (posts : List Post)
    (hclock : (∀ n, w.clock n = now) ∨
      (∀ p ∈ posts, (toBytes p.Published).length = 10 ∨ (toBytes p.Published).length = 16))
    (hlib : SortsByLess w.sortLong) :
    (sortPosts w posts).Perm posts ∧
      (sortPosts w posts).Pairwise (fun p q => ¬ Less now now q p = true) := by
  have hc : ∀ k, ∀ a ∈ posts, ∀ b ∈ posts, lessAt w.clock k a b = Less now now a b := by
    intro k a ha b hb
    apply lessAt_eq
    rcases hclock with h | h
    · exact Or.inl h
    · exact Or.inr ⟨h a ha, h b hb⟩
  unfold sortPosts sortSort
  split
  · exact insertionSort_sorts _ _ posts hc (Less_asymm now) (Less_negtrans now)
  · exact hlib _ _ posts hc (Less_asymm now) (Less_negtrans now)

/-- With a clock that moves on, two posts with no date are left as they stand:
the titles B, A are not put in order. -/
theorem sortPosts_undated_ticking :
    (sortPosts tickingWorld
      [{ Title := "B".toList, Published := "soon".toList, Author := [], Abstract := [],
         Filename := [] },
       { Title := "A".toList, Published := "soon".toList, Author := [], Abstract := [],
         Filename := [] }]).map Post.Title = ["B".toList, "A".toList] := by
  decide

/-- C2: when the current time is held fixed at `now` (or every post carries a
date of ten or sixteen bytes, so that the clock is not looked at), and the
library's routine for slices of more than twelve elements keeps the promise of
package sort, `sort.Sort(ByPublished(posts))` yields a permutation of the posts
in which of two neighbours the first has a Published instant not earlier than
the second, and at equal instants a Title not greater than the second's in the
lexicographic order of the bytes.  Posts titled B and A of 2024-01-02 and C of
2024-01-01 come out in the order A, B, C. -/
theorem sortPosts_sorted {FS : Type} (w : World FS) (now : Int) (posts : List Post)
    (hclock : (∀ n, w.clock n = now) ∨
      (∀ p ∈ posts, (toBytes p.Published).length = 10 ∨ (toBytes p.Published).length = 16))
    (hlib : SortsByLess w.sortLong) :
    (sortPosts w posts).Perm posts ∧
    List.Chain' (fun p q =>
        parseTimeString now q.Published ≤ parseTimeString now p.Published ∧
        (parseTimeString now p.Published = parseTimeString now q.Published →
          bytesCompare (toBytes p.Title) (toBytes q.Title) ≤ 0))
      (sortPosts w posts) ∧
    (∀ a1 a2 a3 b1 b2 b3 f1 f2 f3 : Str,
      sortPosts w
        [{ Title := "B".toList, Published := "2024-01-02".toList, Author := a1,
           Abstract := b1, Filename := f1 },
         { Title := "A".toList, Published := "2024-01-02".toList, Author := a2,
           Abstract := b2, Filename := f2 },
         { Title := "C".toList, Published := "2024-01-01".toList, Author := a3,
           Abstract := b3, Filename := f3 }]
      = [{ Title := "A".toList, Published := "2024-01-02".toList, Author := a2,
           Abstract := b2, Filename := f2 },
         { Title := "B".toList, Published := "2024-01-02".toList, Author := a1,
           Abstract := b1, Filename := f1 },
         { Title := "C".toList, Published := "2024-01-01".toList, Author := a3,
           Abstract := b3, Filename := f3 }]) := by
  obtain ⟨hp, hs⟩ := sortPosts_pairwise w now posts hclock hlib
  refine ⟨hp, ?_, ?_⟩
  · refine List.Pairwise.chain' (hs.imp ?_)
    intro p q h
    rw [Less_iff] at h
    have := bytesCompare_swap (toBytes p.Title) (toBytes q.Title)
    constructor
    · omega
    · intro e
      omega
  · intro a1 a2 a3 b1 b2 b3 f1 f2 f3
    have t2 : ∀ c : Int, parseTimeString c "2024-01-02".toList = 63839750400000000000 := by
      intro c
      simp only [parseTimeString, show (toBytes "2024-01-02".toList).length = 10 by decide,
        if_true]
      decide
    have t1 : ∀ c : Int, parseTimeString c "2024-01-01".toList = 63839664000000000000 := by
      intro c
      simp only [parseTimeString, show (toBytes "2024-01-01".toList).length = 10 by decide,
        if_true]
      decide
    have hAB : ∀ k, lessAt w.clock k
        { Title := "A".toList, Published := "2024-01-02".toList, Author := a2,
          Abstract := b2, Filename := f2 }
        { Title := "B".toList, Published := "2024-01-02".toList, Author := a1,
          Abstract := b1, Filename := f1 } = true := by
      intro k
      rw [lessAt, Less_iff]
      refine Or.inr ⟨?_, ?_⟩
      · show parseTimeString _ "2024-01-02".toList = parseTimeString _ "2024-01-02".toList
        rw [t2, t2]
      · show bytesCompare (toBytes "A".toList) (toBytes "B".toList) < 0
        decide
    have hCB : ∀ k, lessAt w.clock k
        { Title := "C".toList, Published := "2024-01-01".toList, Author := a3,
          Abstract := b3, Filename := f3 }
        { Title := "B".toList, Published := "2024-01-02".toList, Author := a1,
          Abstract := b1, Filename := f1 } = false := by
      intro k
      rw [Bool.eq_false_iff, Ne, lessAt, Less_iff]
      show ¬ (parseTimeString _ "2024-01-02".toList < parseTimeString _ "2024-01-01".toList ∨
        (parseTimeString _ "2024-01-01".toList = parseTimeString _ "2024-01-02".toList ∧
          bytesCompare (toBytes "C".toList) (toBytes "B".toList) < 0))
      rw [t1, t2]
      decide
    simp only [sortPosts, sortSort, insertionSort, List.length_cons, List.length_nil,
      List.foldl, insertLeft, hAB, hCB, if_true, Bool.false_eq_true, if_false]
    rfl

/-- C2, in the example world, where the clock stands still: two posts with no
date and the titles B, A come out as A, B. -/
theorem sortPosts_sorted_witness :
    (((∀ n, demoWorld.clock n = 0) ∨
        (∀ p ∈ [({ Title := "B".toList, Published := "soon".toList, Author := [],
                   Abstract := [], Filename := [] } : Post),
                { Title := "A".toList, Published := "soon".toList, Author := [],
                  Abstract := [], Filename := [] }],
          (toBytes p.Published).length = 10 ∨ (toBytes p.Published).length = 16)) ∧
      SortsByLess demoWorld.sortLong) ∧
    (sortPosts demoWorld
      [{ Title := "B".toList, Published := "soon".toList, Author := [], Abstract := [],
         Filename := [] },
       { Title := "A".toList, Published := "soon".toList, Author := [], Abstract := [],
         Filename := [] }]).map Post.Title = ["A".toList, "B".toList] ∧
    List.Chain' (fun p q =>
        parseTimeString 0 q.Published ≤ parseTimeString 0 p.Published ∧
        (parseTimeString 0 p.Published = parseTimeString 0 q.Published →
          bytesCompare (toBytes p.Title) (toBytes q.Title) ≤ 0))
      (sortPosts demoWorld
        [{ Title := "B".toList, Published := "soon".toList, Author := [], Abstract := [],
           Filename := [] },
         { Title := "A".toList, Published := "soon".toList, Author := [], Abstract := [],
           Filename := [] }]) :=
  ⟨⟨Or.inl (fun _ => rfl), insertionSort_SortsByLess⟩, by decide,
    (sortPosts_sorted demoWorld 0 _ (Or.inl (fun _ => rfl)) insertionSort_SortsByLess).2.1⟩

/-! ## Dates that do not parse -/

/-- C11: for the ten-byte string `2024-13-01`, which is no date, `parseTimeString`
returns the zero time, whatever the current time is: the assignment
`t, _ = time.Parse(...)` replaces the current time by what `time.Parse` returns
with its error.  Only a string of another length gives the current time. -/
theorem parseTimeString_invalid_date :
    (toBytes "2024-13-01".toList).length = 10 ∧
    timeParseShort "2024-13-01".toList = none ∧
    (∀ now : Int, parseTimeString now "2024-13-01".toList = 0) ∧
    parseTimeString 1700000000000000000 "2024-13-01".toList ≠ 1700000000000000000 ∧
    (∀ now : Int, parseTimeString now "soon".toList = now) := by
  have h : ∀ now : Int, parseTimeString now "2024-13-01".toList = 0 := by
    intro now
    simp only [parseTimeString, show (toBytes "2024-13-01".toList).length = 10 by decide,
      if_true]
    decide
  refine ⟨by decide, by decide, h, ?_, ?_⟩
  · rw [h]; decide
  · intro now
    simp only [parseTimeString, show ¬ (toBytes "soon".toList).length = 10 by decide,
      show ¬ (toBytes "soon".toList).length = 16 by decide, if_false]

/-! ## Template errors -/

/-- C12: in a world whose template engine fails, `generateHtml` returns an error
for the document, and still the round writes an output file (with no content),
appends the summary and ends without a failure, so that the loop goes on to the
next document. -/
theorem template_error_is_dropped :
    (generateHtml failWorld (baseTemplate failWorld defaultFlags)
      (postTemplate failWorld defaultFlags)
      [("Post".toList, Value.str "<p>\nbody</p>".toList),
        ("Author".toList, Value.str "A".toList),
        ("Published".toList, Value.str "2024-01-02".toList),
        ("Title".toList, Value.str "T".toList)]).1.2 = some "no such file".toList ∧
    (runDoc failWorld defaultFlags { d := [], posts := [], fs := [] } "a.md".toList
      "Title: T\nPublished: 2024-01-02\nAuthor: A\n-----\nbody".toList).1 = none ∧
    (runDoc failWorld defaultFlags { d := [], posts := [], fs := [] } "a.md".toList
      "Title: T\nPublished: 2024-01-02\nAuthor: A\n-----\nbody".toList).2.fs
      = [("/site/output/a.html".toList, [])] ∧
    ((runDocs failWorld defaultFlags { d := [], posts := [], fs := [] }
      [("a.md".toList, "Title: T\nPublished: 2024-01-02\nAuthor: A\n-----\nbody".toList),
        ("b.md".toList, "Title: U\nPublished: 2024-01-03\nAuthor: B\n-----\nmore".toList)]).2.fs.map
      Prod.fst) = ["/site/output/a.html".toList, "/site/output/b.html".toList] := by
  decide

/-! ## Totality of the config-string parser -/

theorem lineKey_absent (line : Str) (h : ':' ∉ line) : lineKey line = TrimSpace line := by
  simp only [lineKey]
  rw [show ":".toList = [':'] from rfl, Split_absent ':' line h]
  rfl

theorem lineValue_absent (line : Str) (h : ':' ∉ line) : lineValue line = [] := by
  simp only [lineValue]
  rw [show ":".toList = [':'] from rfl, Split_absent ':' line h]
  rfl

/-- The function `parseConfig` returns a mapping for every block, initial mapping
and separator: the index `l[0]` is never out of range.  On a non-empty segment
with no colon the round of the loop binds the trimmed segment to the empty
string. -/
theorem parseConfig_never_fails (conf sep : Str) (params : Ctx) :
    (∃ d, parseConfig conf params sep = some d) ∧
    (∀ (line : Str) (rest : List Str) (d : Ctx), line ≠ [] → ':' ∉ line →
      Split line ":".toList = [line] ∧
      parseConfigLoop (line :: rest) d
        = parseConfigLoop rest (mapSet d (TrimSpace line) (Value.str []))) := by
  refine ⟨parseConfigLoop_total _ _, ?_⟩
  intro line rest d hne hcolon
  refine ⟨Split_absent ':' line hcolon, ?_⟩
  rw [parseConfigLoop_cons line rest d hne, lineKey_absent line hcolon,
    lineValue_absent line hcolon]

/-- An example: at the key-only segment `draft` in front of the segment `Title: T`
the key `draft` is bound to the empty string and the loop goes on. -/
theorem parseConfig_never_fails_example :
    ("draft".toList ≠ [] ∧ ':' ∉ "draft".toList) ∧
    Split "draft".toList ":".toList = ["draft".toList] ∧
    parseConfigLoop ("draft".toList :: ["Title: T".toList]) []
      = parseConfigLoop ["Title: T".toList]
          (mapSet [] (TrimSpace "draft".toList) (Value.str [])) :=
  ⟨⟨by decide, by decide⟩,
    (parseConfig_never_fails [] [] []).2 "draft".toList ["Title: T".toList] []
      (by decide) (by decide)⟩

/-- C14: a key-only segment behind an empty segment is not stored.  In the block
made of an empty line and the line `draft` the call returns without a run-time
failure, but the segment `draft`, which is not empty and has no colon, is
never read: the mapping is still empty after the call, with no key `draft`. -/
theorem parseConfig_key_only_behind_empty :
    "draft".toList ∈ Split "\ndraft".toList "\n".toList ∧
    "draft".toList ≠ [] ∧ ':' ∉ "draft".toList ∧
    parseConfig "\ndraft".toList [] "\n".toList = some [] ∧
    (parseConfig "\ndraft".toList [] "\n".toList).bind (fun d => mapGet d "draft".toList)
      = none := by
  decide

/-! ## A negative paragraph count -/

/-- C15: for the text `<p>a</p>` and the count -1 the slice expression `parts[:i]`
of `truncate` is out of range: the call ends in a run-time panic and returns no
string. -/
theorem truncate_negative_count :
    truncate "<p>a</p>".toList (-1) = none ∧
    (SplitAfter "<p>a</p>".toList "</p>".toList).length = 2 := by
  decide

/-! ## config.go -/

/-- C19: from the empty configuration `validateConfig` leaves `OverviewFile` and
`BaseTemplate` empty: the branch for an empty `OverviewFile` assigns `LayoutFile`
and the branch for an empty `BaseTemplate` assigns `PostsFolder`, so that
`LayoutFile` ends as `overview.html` and `PostsFolder` as `base.html` instead of
their own defaults. -/
theorem validateConfig_leaves_fields_empty :
    (validateConfig emptyConfig).OverviewFile = [] ∧
    (validateConfig emptyConfig).BaseTemplate = [] ∧
    (validateConfig emptyConfig).LayoutFile = "overview.html".toList ∧
    (validateConfig emptyConfig).PostsFolder = "base.html".toList ∧
    (validateConfig { emptyConfig with LayoutFile := "mine.html".toList }).LayoutFile
      = "overview.html".toList := by
  decide

/-! ## The summary of a post -/

theorem composePost_other {FS : Type} (w : World FS) (fl : Flags) (d : Ctx) (k : Str)
    (h1 : k ≠ "Content".toList) (h2 : k ≠ "Layout".toList) :
    mapGet (composePost w fl d).2.2 k = mapGet d k := by
  unfold composePost
  split
  · simp only
    rw [mapGet_mapDelete_other _ h2, generateHtml_other w _ _ d k h1]
  · simp only
    rw [generateHtml_other w _ _ d k h1]

theorem assertString_none (d : Ctx) (k : Str) (h : mapGet d k = none) :
    assertString d k = none := by
  simp only [assertString, h]

theorem assertString_some (d : Ctx) (k s : Str) (h : assertString d k = some s) :
    mapGet d k = some (Value.str s) := by
  unfold assertString at h
  split at h
  · rename_i s1 hs
    simp only [Option.some.injEq] at h
    rw [hs, h]
  · simp at h

theorem assertString_str (d : Ctx) (k s : Str) (h : mapGet d k = some (Value.str s)) :
    assertString d k = some s := by
  simp only [assertString, h]

theorem changeExtension_total (filename newExtension : Str) :
    ∃ htmlName, changeExtension filename newExtension = some htmlName := by
  have hne : (SplitAfter filename ".".toList).length ≠ 0 := by
    rw [Ne, List.length_eq_zero]
    exact SplitAfter_ne_nil '.' _
  refine ⟨Join (SplitAfter filename ".".toList).dropLast [] ++ newExtension, ?_⟩
  simp only [changeExtension, hne, if_false]

theorem truncate_total (s : Str) (N : Int) (hN : 0 ≤ N) : ∃ t, truncate s N = some t := by
  unfold truncate
  simp only
  split
  · exact ⟨_, rfl⟩
  · rw [if_neg (by omega)]
    exact ⟨_, rfl⟩

/-- A summary is built exactly from the four strings of the context. -/
theorem buildPost_some (fl : Flags) (d : Ctx) (htmlName : Str) (post : Post)
    (h : buildPost fl d htmlName = some post) :
    ∃ title published author body abstract,
      mapGet d "Title".toList = some (Value.str title) ∧
      mapGet d "Published".toList = some (Value.str published) ∧
      mapGet d "Author".toList = some (Value.str author) ∧
      mapGet d "Post".toList = some (Value.str body) ∧
      truncate body fl.truncateLength = some abstract ∧
      post = { Title := title, Published := published, Author := author,
               Abstract := abstract, Filename := htmlName } := by
  unfold buildPost at h
  split at h
  · simp at h
  · rename_i title ht
    split at h
    · simp at h
    · rename_i published hp
      split at h
      · simp at h
      · rename_i author ha
        split at h
        · simp at h
        · rename_i body hb
          split at h
          · simp at h
          · rename_i abstract habs
            simp only [Option.some.injEq] at h
            exact ⟨title, published, author, body, abstract, assertString_some _ _ _ ht,
              assertString_some _ _ _ hp, assertString_some _ _ _ ha,
              assertString_some _ _ _ hb, habs, h.symm⟩

theorem buildPost_none (fl : Flags) (d : Ctx) (htmlName : Str)
    (h : mapGet d "Title".toList = none ∨ mapGet d "Published".toList = none ∨
      mapGet d "Author".toList = none) :
    buildPost fl d htmlName = none := by
  cases hb : buildPost fl d htmlName with
  | none => rfl
  | some post =>
    obtain ⟨title, published, author, body, abstract, h1, h2, h3, -⟩ :=
      buildPost_some fl d htmlName post hb
    rcases h with h | h | h
    · rw [h] at h1; cases h1
    · rw [h] at h2; cases h2
    · rw [h] at h3; cases h3

/-- How a round of the loop ends once the text has passed the separator check. -/
theorem runDoc_of_context {FS : Type} (w : World FS) (fl : Flags) (st : State FS)
    (name text : Str) (d1 : Ctx) (htmlName : Str)
    (hctx : docContext w fl st.d text = Except.ok d1)
    (hname : changeExtension name "html".toList = some htmlName) :
    runDoc w fl st name text =
      match writeFile w st.fs (outPath w fl) htmlName (composePost w fl d1).2.1 with
      | (some err, fs1) =>
        (some (Failure.fatal err),
          { d := (composePost w fl d1).2.2, posts := st.posts, fs := fs1 })
      | (none, fs1) =>
        match buildPost fl (composePost w fl d1).2.2 htmlName with
        | none =>
          (some Failure.panic, { d := (composePost w fl d1).2.2, posts := st.posts, fs := fs1 })
        | some post =>
          (none, { d := (composePost w fl d1).2.2, posts := st.posts ++ [post], fs := fs1 }) := by
  simp only [runDoc, hctx, hname]

/-- C13: for a document that has passed the separator check, with `d1` the
context after its front-matter is merged.  When `d1` lacks `Title`, `Published`
or `Author`, the round ends in a failure, the loop stops there, and no summary
is appended.  When the round ends without a failure, the summary it appends
carries the `Title`, `Published` and `Author` of `d1`, the truncated `Post` of
`d1` as `Abstract` and the name with the extension `html` as `Filename`; and
that is how the round ends when the three keys hold strings, the page is
written without an error and the paragraph count is not negative. -/
theorem summary_of_context {FS : Type} (w : World FS) (fl : Flags) (st : State FS)
    (name text : Str) (d1 : Ctx) (hctx : docContext w fl st.d text = Except.ok d1) :
    ((mapGet d1 "Title".toList = none ∨ mapGet d1 "Published".toList = none ∨
        mapGet d1 "Author".toList = none) →
      ∃ e st1, runDoc w fl st name text = (some e, st1) ∧ st1.posts = st.posts ∧
        ∀ rest, runDocs w fl st ((name, text) :: rest) = (some e, st1)) ∧
    (∀ st1, runDoc w fl st name text = (none, st1) →
      ∃ title published author body abstract htmlName,
        mapGet d1 "Title".toList = some (Value.str title) ∧
        mapGet d1 "Published".toList = some (Value.str published) ∧
        mapGet d1 "Author".toList = some (Value.str author) ∧
        mapGet d1 "Post".toList = some (Value.str body) ∧
        truncate body fl.truncateLength = some abstract ∧
        changeExtension name "html".toList = some htmlName ∧
        st1.posts = st.posts ++
          [{ Title := title, Published := published, Author := author,
             Abstract := abstract, Filename := htmlName }]) ∧
    (∀ title published author htmlName,
      mapGet d1 "Title".toList = some (Value.str title) →
      mapGet d1 "Published".toList = some (Value.str published) →
      mapGet d1 "Author".toList = some (Value.str author) →
      changeExtension name "html".toList = some htmlName →
      (writeFile w st.fs (outPath w fl) htmlName (composePost w fl d1).2.1).1 = none →
      0 ≤ fl.truncateLength →
      ∃ st1, runDoc w fl st name text = (none, st1)) := by
  obtain ⟨htmlName, hname⟩ := changeExtension_total name "html".toList
  have hrun := runDoc_of_context w fl st name text d1 htmlName hctx hname
  have hT := composePost_other w fl d1 "Title".toList (by decide) (by decide)
  have hP := composePost_other w fl d1 "Published".toList (by decide) (by decide)
  have hA := composePost_other w fl d1 "Author".toList (by decide) (by decide)
  have hB := composePost_other w fl d1 "Post".toList (by decide) (by decide)
  refine ⟨?_, ?_, ?_⟩
  · intro hlack
    have hnone : buildPost fl (composePost w fl d1).2.2 htmlName = none :=
      buildPost_none fl _ htmlName (by rw [hT, hP, hA]; exact hlack)
    rw [hnone] at hrun
    have key : ∃ e st1, runDoc w fl st name text = (some e, st1) ∧ st1.posts = st.posts := by
      rw [hrun]
      cases hw : writeFile w st.fs (outPath w fl) htmlName (composePost w fl d1).2.1 with
      | mk err fs1 =>
        cases err with
        | some err => exact ⟨_, _, rfl, rfl⟩
        | none => exact ⟨_, _, rfl, rfl⟩
    obtain ⟨e, st1, h1, h2⟩ := key
    refine ⟨e, st1, h1, h2, ?_⟩
    intro rest
    simp only [runDocs, h1]
  · intro st1 h
    rw [hrun] at h
    cases hw : writeFile w st.fs (outPath w fl) htmlName (composePost w fl d1).2.1 with
    | mk err fs1 =>
      rw [hw] at h
      cases err with
      | some err => simp at h
      | none =>
        simp only at h
        cases hb : buildPost fl (composePost w fl d1).2.2 htmlName with
        | none => rw [hb] at h; simp at h
        | some post =>
          rw [hb] at h
          simp only [Prod.mk.injEq, true_and] at h
          obtain ⟨title, published, author, body, abstract, h1, h2, h3, h4, h5, h6⟩ :=
            buildPost_some fl _ htmlName post hb
          rw [hT] at h1
          rw [hP] at h2
          rw [hA] at h3
          rw [hB] at h4
          refine ⟨title, published, author, body, abstract, htmlName, h1, h2, h3, h4, h5,
            hname, ?_⟩
          rw [← h, ← h6]
  · intro title published author htmlName2 h1 h2 h3 hname2 hw hN
    rw [hname] at hname2
    cases hname2
    have hpost : ∃ body, mapGet d1 "Post".toList = some (Value.str body) := by
      unfold docContext at hctx
      split at hctx
      · split at hctx
        · cases hctx
        · simp only [Except.ok.injEq] at hctx
          rw [← hctx]
          exact ⟨_, mapGet_mapSet_same _ _ _⟩
      · cases hctx
    obtain ⟨body, h4⟩ := hpost
    obtain ⟨abstract, h5⟩ := truncate_total body fl.truncateLength hN
    have hb : buildPost fl (composePost w fl d1).2.2 htmlName
        = some { Title := title, Published := published, Author := author,
                 Abstract := abstract, Filename := htmlName } := by
      simp only [buildPost, assertString_str _ _ _ (hT.trans h1),
        assertString_str _ _ _ (hP.trans h2), assertString_str _ _ _ (hA.trans h3),
        assertString_str _ _ _ (hB.trans h4), h5]
    rw [hrun, hb]
    cases hw2 : writeFile w st.fs (outPath w fl) htmlName (composePost w fl d1).2.1 with
    | mk err fs1 =>
      rw [hw2] at hw
      simp only at hw
      subst hw
      exact ⟨_, rfl⟩

/-- C13, in the example world at a document with no `Author`: the round fails and
the list of summaries stays empty. -/
theorem summary_of_context_witness :
    docContext demoWorld defaultFlags [] "Title: T\nPublished: 2024-01-02\n-----\nbody".toList
      = Except.ok [("Post".toList, Value.str "<p>\nbody</p>".toList),
          ("Published".toList, Value.str "2024-01-02".toList),
          ("Title".toList, Value.str "T".toList)] ∧
    ∃ e st1, runDoc demoWorld defaultFlags { d := [], posts := [], fs := [] } "a.md".toList
        "Title: T\nPublished: 2024-01-02\n-----\nbody".toList = (some e, st1) ∧
      st1.posts = [] ∧
      ∀ rest, runDocs demoWorld defaultFlags { d := [], posts := [], fs := [] }
        (("a.md".toList, "Title: T\nPublished: 2024-01-02\n-----\nbody".toList) :: rest)
        = (some e, st1) :=
  ⟨rfl,
    (summary_of_context demoWorld defaultFlags { d := [], posts := [], fs := [] } "a.md".toList
      "Title: T\nPublished: 2024-01-02\n-----\nbody".toList
      [("Post".toList, Value.str "<p>\nbody</p>".toList),
        ("Published".toList, Value.str "2024-01-02".toList),
        ("Title".toList, Value.str "T".toList)] rfl).1 (Or.inr (Or.inr (by decide)))⟩

/-! ## The shape of a truncated text -/

theorem take_append_sep (a sep b : Str) :
    (a ++ sep ++ b).take (a.length + sep.length) = a ++ sep := by
  rw [← List.length_append]
  exact List.take_left _ _

theorem take_of_Index {s sep : Str} {m : Nat} (h : Index s sep = some m) :
    s.take (m + sep.length) = s.take m ++ sep := by
  obtain ⟨hs, hle⟩ := Index_some_split h
  have hlen : (s.take m).length = m := by
    rw [List.length_take]
    omega
  have := take_append_sep (s.take m) sep (s.drop (m + sep.length))
  rw [← hs, hlen] at this
  exact this

theorem SplitAfter_some {s sep : Str} {m : Nat} (hsep : sep ≠ [])
    (h : Index s sep = some m) :
    SplitAfter s sep = (s.take m ++ sep) :: SplitAfter (s.drop (m + sep.length)) sep := by
  simp only [SplitAfter]
  rw [genSplit_some _ hsep h, take_of_Index h]

/-- The first `n` pieces of `SplitAfter`, when the separator is counted at least
`n` times: put together they split into the same pieces and an empty last piece,
they end with the separator, and they are the beginning of the string. -/
theorem SplitAfter_take {sep : Str} (hsep : sep ≠ []) (n : Nat) :
    ∀ s : Str, n ≤ Count s sep →
      SplitAfter ((SplitAfter s sep).take n).flatten sep = (SplitAfter s sep).take n ++ [[]] ∧
      (0 < n → sep <:+ ((SplitAfter s sep).take n).flatten) ∧
      ((SplitAfter s sep).take n).flatten <+: s := by
  induction n with
  | zero =>
    intro s _
    refine ⟨?_, fun h => absurd h (by omega), by simp⟩
    simp only [List.take_zero, List.flatten_nil, List.nil_append, SplitAfter]
    exact genSplit_none _ hsep (by simp [Index, hsep])
  | succ n ih =>
    intro s hs
    cases hI : Index s sep with
    | none => rw [Count_none hsep hI] at hs; omega
    | some m =>
      rw [Count_some hsep hI] at hs
      obtain ⟨ih1, ih2, ih3⟩ := ih (s.drop (m + sep.length)) (by omega)
      rw [SplitAfter_some hsep hI, List.take_succ_cons, List.flatten_cons]
      have hI2 : Index (s.take m ++ sep
          ++ ((SplitAfter (s.drop (m + sep.length)) sep).take n).flatten) sep
          = some (s.take m).length :=
        Index_first hsep (Index_some_minimal hsep hI)
      refine ⟨?_, ?_, ?_⟩
      · have h1 : SplitAfter (s.take m ++ sep
            ++ ((SplitAfter (s.drop (m + sep.length)) sep).take n).flatten) sep
            = (s.take m ++ sep)
              :: SplitAfter ((SplitAfter (s.drop (m + sep.length)) sep).take n).flatten sep := by
          rw [SplitAfter_some hsep hI2]
          congr 1
          · rw [List.append_assoc, List.take_left]
          · rw [← List.length_append, List.drop_left]
        rw [h1, ih1]
        rfl
      · intro _
        by_cases hn : 0 < n
        · exact (ih2 hn).trans (List.suffix_append _ _)
        · have hn0 : n = 0 := by omega
          subst hn0
          simp only [List.take_zero, List.flatten_nil, List.append_nil]
          exact List.suffix_append _ _
      · conv => rhs; rw [(Index_some_split hI).1]
        exact (List.prefix_append_right_inj _).2 ih3

theorem genSplit_length_SplitAfter {sep : Str} (hsep : sep ≠ []) (s : Str) :
    (SplitAfter s sep).length = Count s sep + 1 :=
  genSplit_length hsep _ s

/-- C16: for a count `N ≥ 1` and a text in which `</p>` is counted at least `N`
times, `truncate` returns a text that ends with `</p>`, in which `</p>` is
counted exactly `N` times, and which is the beginning of the text it was given. -/
theorem truncate_closed_paragraphs (s : Str) (N : Int) (hN : 1 ≤ N)
    (hcount : N ≤ (Count s "</p>".toList : Int)) :
    ∃ t, truncate s N = some t ∧ "</p>".toList <:+ t ∧
      (Count t "</p>".toList : Int) = N ∧ t <+: s := by
  have hsep : "</p>".toList ≠ [] := by decide
  obtain ⟨n, rfl⟩ : ∃ n : Nat, N = (n : Int) := ⟨N.toNat, by omega⟩
  have hn : n ≤ Count s "</p>".toList := by omega
  obtain ⟨h1, h2, h3⟩ := SplitAfter_take hsep n s hn
  have hlen := genSplit_length_SplitAfter hsep s
  refine ⟨((SplitAfter s "</p>".toList).take n).flatten, ?_, h2 (by omega), ?_, h3⟩
  · have e1 : ¬ ((SplitAfter s "</p>".toList).length : Int) < (n : Int) := by omega
    have e2 : ¬ (n : Int) < 0 := by omega
    simp only [truncate, e1, e2, if_false, Join_nil_sep, Int.toNat_ofNat]
  · have hl := genSplit_length_SplitAfter hsep ((SplitAfter s "</p>".toList).take n).flatten
    rw [h1, List.length_append, List.length_take] at hl
    simp only [List.length_singleton] at hl
    omega

/-- C16, at a text of two closed paragraphs and the count 2. -/
theorem truncate_closed_paragraphs_witness :
    ((1 : Int) ≤ 2 ∧ (2 : Int) ≤ (Count "<p>a</p><p>b</p>tail".toList "</p>".toList : Int)) ∧
    ∃ t, truncate "<p>a</p><p>b</p>tail".toList 2 = some t ∧ "</p>".toList <:+ t ∧
      (Count t "</p>".toList : Int) = 2 ∧ t <+: "<p>a</p><p>b</p>tail".toList :=
  ⟨⟨by decide, by decide⟩,
    truncate_closed_paragraphs "<p>a</p><p>b</p>tail".toList 2 (by decide) (by decide)⟩

/-- C17: for a count `N ≥ 0`, `truncate` returns a text, and truncating that text
again with the same count returns it unchanged. -/
theorem truncate_idempotent (s : Str) (N : Int) (hN : 0 ≤ N) :
    ∃ t, truncate s N = some t ∧ truncate t N = some t := by
  have hsep : "</p>".toList ≠ [] := by decide
  obtain ⟨n, rfl⟩ : ∃ n : Nat, N = (n : Int) := ⟨N.toNat, by omega⟩
  have hlen := genSplit_length_SplitAfter hsep s
  by_cases hlt : ((SplitAfter s "</p>".toList).length : Int) < (n : Int)
  · have h : truncate s n = some s := by simp only [truncate, hlt, if_true]
    exact ⟨s, h, h⟩
  · have e2 : ¬ (n : Int) < 0 := by omega
    have hval : truncate s n = some ((SplitAfter s "</p>".toList).take n).flatten := by
      simp only [truncate, hlt, e2, if_false, Join_nil_sep, Int.toNat_ofNat]
    by_cases hall : n = Count s "</p>".toList + 1
    · have hs : ((SplitAfter s "</p>".toList).take n).flatten = s := by
        rw [hall, ← hlen, List.take_length, ← Join_nil_sep, Join_SplitAfter]
      rw [hs] at hval
      exact ⟨s, hval, hval⟩
    · have hn : n ≤ Count s "</p>".toList := by omega
      obtain ⟨h1, -, -⟩ := SplitAfter_take hsep n s hn
      refine ⟨_, hval, ?_⟩
      have hl : ((SplitAfter s "</p>".toList).take n).length = n := by
        rw [List.length_take]; omega
      have e1 : ¬ (((SplitAfter ((SplitAfter s "</p>".toList).take n).flatten
          "</p>".toList).length : Nat) : Int) < (n : Int) := by
        rw [h1, List.length_append, hl]
        simp
      simp only [truncate, e1, e2, if_false, Join_nil_sep, Int.toNat_ofNat]
      rw [h1]
      congr 2
      conv => lhs; arg 1; rw [← hl]
      exact List.take_left _ _

/-- C17, at a text of two paragraphs and the count 1. -/
theorem truncate_idempotent_witness :
    (0 : Int) ≤ 1 ∧
    ∃ t, truncate "<p>a</p><p>b</p>".toList 1 = some t ∧ truncate t 1 = some t :=
  ⟨by decide, truncate_idempotent "<p>a</p><p>b</p>".toList 1 (by decide)⟩

/-! ## `Less` is a strict weak ordering -/

theorem bytesCompare_eq_zero (a b : List Nat) : bytesCompare a b = 0 ↔ a = b := by
  induction a generalizing b with
  | nil => cases b <;> simp [bytesCompare]
  | cons x xs ih =>
    cases b with
    | nil => simp [bytesCompare]
    | cons y ys =>
      simp only [bytesCompare, List.cons.injEq]
      by_cases h1 : x < y
      · simp only [h1, if_true]
        constructor
        · intro h; omega
        · intro h; omega
      · by_cases h2 : y < x
        · simp only [h1, h2, if_true, if_false]
          constructor
          · intro h; omega
          · intro h; omega
        · simp only [h1, h2, if_false, ih]
          constructor
          · intro h; exact ⟨by omega, h⟩
          · intro h; exact h.2

theorem Char_toNat_lt (c : Char) : c.toNat < 0x110000 := by
  have h := c.valid
  simp only [UInt32.isValidChar, Nat.isValidChar] at h
  simp only [Char.toNat]
  omega

theorem Char_eq_of_toNat (c d : Char) (h : c.toNat = d.toNat) : c = d := by
  rw [← Char.ofNat_toNat c, ← Char.ofNat_toNat d, h]

/-- The UTF-8 encoding can be read back: the bytes of one code point in front of
other bytes determine the code point and the other bytes. -/
theorem utf8Char_append_inj (c d : Char) (r1 r2 : List Nat)
    (h : utf8Char c ++ r1 = utf8Char d ++ r2) : c = d ∧ r1 = r2 := by
  have hc := Char_toNat_lt c
  have hd := Char_toNat_lt d
  simp only [utf8Char] at h
  split_ifs at h <;>
    simp only [List.cons_append, List.nil_append, List.cons.injEq] at h <;>
    first
      | (exfalso; omega)
      | exact ⟨Char_eq_of_toNat c d (by omega), by tauto⟩

theorem toBytes_injective (s t : Str) (h : toBytes s = toBytes t) : s = t := by
  induction s generalizing t with
  | nil =>
    cases t with
    | nil => rfl
    | cons d ds =>
      exfalso
      simp only [toBytes, List.flatMap_nil, List.flatMap_cons, utf8Char] at h
      split_ifs at h <;> simp at h
  | cons c cs ih =>
    cases t with
    | nil =>
      exfalso
      simp only [toBytes, List.flatMap_nil, List.flatMap_cons, utf8Char] at h
      split_ifs at h <;> simp at h
    | cons d ds =>
      simp only [toBytes, List.flatMap_cons] at h
      obtain ⟨h1, h2⟩ := utf8Char_append_inj c d _ _ h
      rw [h1, ih ds h2]

theorem Less_trans (now : Int) (p q r : Post) (h1 : Less now now p q = true)
    (h2 : Less now now q r = true) : Less now now p r = true := by
  by_contra h
  exact Less_negtrans now p r q h (Less_asymm now q r h2) h1

/-- Two posts are not told apart by `Less` exactly when their instants and their
titles agree. -/
theorem Less_incomparable_iff (now : Int) (p q : Post) :
    (Less now now p q = false ∧ Less now now q p = false) ↔
      (parseTimeString now p.Published = parseTimeString now q.Published ∧
        p.Title = q.Title) := by
  rw [Bool.eq_false_iff, Bool.eq_false_iff, Ne, Ne, Less_iff, Less_iff]
  have hs := bytesCompare_swap (toBytes p.Title) (toBytes q.Title)
  have hz := bytesCompare_eq_zero (toBytes p.Title) (toBytes q.Title)
  constructor
  · rintro ⟨h1, h2⟩
    have e : parseTimeString now p.Published = parseTimeString now q.Published := by omega
    refine ⟨e, toBytes_injective _ _ (hz.1 ?_)⟩
    omega
  · rintro ⟨e, ht⟩
    have hz0 : bytesCompare (toBytes p.Title) (toBytes q.Title) = 0 := hz.2 (by rw [ht])
    constructor <;> omega

/-- C18: with the current time held fixed, so that both readings of the clock in
a call of `Less` give `now`, `Less` is a strict weak ordering of the posts: no
post is less than itself, `Less` is transitive, two posts are never each less
than the other, and being incomparable is transitive and means having equal
Published instants and equal Titles.  For two posts that carry a date of ten or
sixteen bytes the clock is not looked at: whatever the two readings are, `Less`
answers as at the fixed time.  (With a clock that moves on between the two
readings the titles of two posts with no date are never compared: see
`Less_undated`.) -/
theorem Less_strict_weak_order (now : Int) :
    (∀ p : Post, Less now now p p = false) ∧
    (∀ p q r : Post, Less now now p q = true → Less now now q r = true → Less now now p r = true) ∧
    (∀ p q : Post, ¬ (Less now now p q = true ∧ Less now now q p = true)) ∧
    (∀ p q r : Post, (Less now now p q = false ∧ Less now now q p = false) →
      (Less now now q r = false ∧ Less now now r q = false) →
      (Less now now p r = false ∧ Less now now r p = false)) ∧
    (∀ p q : Post, (Less now now p q = false ∧ Less now now q p = false) ↔
      (parseTimeString now p.Published = parseTimeString now q.Published ∧
        p.Title = q.Title)) ∧
    (∀ (ci cj : Int) (p q : Post),
      ((toBytes p.Published).length = 10 ∨ (toBytes p.Published).length = 16) →
      ((toBytes q.Published).length = 10 ∨ (toBytes q.Published).length = 16) →
      Less ci cj p q = Less now now p q) := by
  refine ⟨?_, Less_trans now, ?_, ?_, Less_incomparable_iff now, ?_⟩
  · intro p
    rw [Bool.eq_false_iff]
    intro h
    exact Less_asymm now p p h h
  · rintro p q ⟨h1, h2⟩
    exact Less_asymm now p q h1 h2
  · intro p q r h1 h2
    rw [Less_incomparable_iff] at h1 h2 ⊢
    exact ⟨h1.1.trans h2.1, h1.2.trans h2.2⟩
  · intro ci cj p q hp hq
    simp only [Less]
    rw [parseTimeString_dated ci now _ hp, parseTimeString_dated cj now _ hq]

/-- C18, at three posts of one day titled A, B and C. -/
theorem Less_strict_weak_order_witness :
    (Less 0 0 { Title := "A".toList, Published := "2024-01-02".toList, Author := [],
                Abstract := [], Filename := [] }
        { Title := "B".toList, Published := "2024-01-02".toList, Author := [],
          Abstract := [], Filename := [] } = true ∧
      Less 0 0 { Title := "B".toList, Published := "2024-01-02".toList, Author := [],
                 Abstract := [], Filename := [] }
        { Title := "C".toList, Published := "2024-01-02".toList, Author := [],
          Abstract := [], Filename := [] } = true) ∧
    Less 0 0 { Title := "A".toList, Published := "2024-01-02".toList, Author := [],
               Abstract := [], Filename := [] }
      { Title := "C".toList, Published := "2024-01-02".toList, Author := [],
        Abstract := [], Filename := [] } = true :=
  ⟨⟨by decide, by decide⟩,
    (Less_strict_weak_order 0).2.1
      { Title := "A".toList, Published := "2024-01-02".toList, Author := [],
        Abstract := [], Filename := [] }
      { Title := "B".toList, Published := "2024-01-02".toList, Author := [],
        Abstract := [], Filename := [] }
      { Title := "C".toList, Published := "2024-01-02".toList, Author := [],
        Abstract := [], Filename := [] } (by decide) (by decide)⟩

/-! ## Which configuration wins in `main` -/

/-- The context at the end of `main`, for a run whose loop ends without a failure:
but for `Posts`, `Title` and `Content` it is the context the loop has left. -/
theorem main_context {FS : Type} (w : World FS) (fl : Flags) (fs0 : FS) (confText : Str)
    (files : List (Str × Str)) (d0 d1 : Ctx) (st : State FS)
    (h0 : parseConfig confText [] "\n".toList = some d0)
    (h1 : parseConfig fl.config d0 ",".toList = some d1)
    (hrun : runDocs w fl { d := d1, posts := [], fs := fs0 } files = (none, st)) :
    ∃ st1, main w fl fs0 confText files = (none, st1) ∧
      ∀ k, k ≠ "Content".toList → k ≠ "Title".toList → k ≠ "Posts".toList →
        mapGet st1.d k = mapGet st.d k := by
  have hm : main w fl fs0 confText files = (none,
      { d := (generateHtml w (baseTemplate w fl) (overviewTemplate w fl)
          (mapSet (mapSet st.d "Posts".toList (Value.posts (sortPosts w st.posts)))
            "Title".toList (Value.str fl.overviewTitle))).2,
        posts := sortPosts w st.posts,
        fs := (writeFile w st.fs (outPath w fl) fl.index
          (generateHtml w (baseTemplate w fl) (overviewTemplate w fl)
            (mapSet (mapSet st.d "Posts".toList (Value.posts (sortPosts w st.posts)))
              "Title".toList (Value.str fl.overviewTitle))).1.1).2 }) := by
    simp only [main, h0, h1, hrun]
  refine ⟨_, hm, ?_⟩
  intro k hC hT hP
  simp only
  rw [generateHtml_other w _ _ _ k hC, mapGet_mapSet_other _ _ hT, mapGet_mapSet_other _ _ hP]

/-- A run of `main` that ends without a failure has read both configurations and
has run the loop without a failure. -/
theorem main_success {FS : Type} (w : World FS) (fl : Flags) (fs0 : FS) (confText : Str)
    (files : List (Str × Str)) (st1 : State FS)
    (h : main w fl fs0 confText files = (none, st1)) :
    ∃ d0 d1 st, parseConfig confText [] "\n".toList = some d0 ∧
      parseConfig fl.config d0 ",".toList = some d1 ∧
      runDocs w fl { d := d1, posts := [], fs := fs0 } files = (none, st) ∧
      ∀ k, k ≠ "Content".toList → k ≠ "Title".toList → k ≠ "Posts".toList →
        mapGet st1.d k = mapGet st.d k := by
  obtain ⟨d0, h0⟩ := parseConfig_total confText [] "\n".toList
  obtain ⟨d1, h1⟩ := parseConfig_total fl.config d0 ",".toList
  cases hrun : runDocs w fl { d := d1, posts := [], fs := fs0 } files with
  | mk e st =>
    cases e with
    | some e =>
      simp only [main, h0, h1, hrun] at h
      cases h
    | none =>
      obtain ⟨st2, h2, hk⟩ := main_context w fl fs0 confText files d0 d1 st h0 h1 hrun
      rw [h] at h2
      cases h2
      exact ⟨d0, d1, st, h0, h1, hrun, hk⟩

theorem runDocs_single {FS : Type} (w : World FS) (fl : Flags) (st st1 : State FS)
    (name text : Str) (h : runDocs w fl st [(name, text)] = (none, st1)) :
    runDoc w fl st name text = (none, st1) := by
  simp only [runDocs] at h
  cases hr : runDoc w fl st name text with
  | mk e st2 =>
    rw [hr] at h
    cases e with
    | some e => cases h
    | none => simpa [runDocs] using h

/-- C5: for a block with no empty segment before its last non-empty segment and
any initial mapping, `parseConfig` returns a mapping in which the key of every
segment that no later segment shares its key with is bound to that segment's
value, whatever the mapping held for the key before; the keys that no segment
carries keep their bindings.  So, in `main`: when the block is the front-matter
of a document, the context of the document binds these keys to the values of the
front-matter, whatever the global defaults are, and so does the context that a
run of `main` over the document leaves; when the block is the string of the flag
`-config`, the context of a run of `main` binds these keys to the values of the
flag, whatever the config file holds.  (The keys `Post`, `Content`, `Layout`,
`Title` and `Posts`, which `main` writes itself, are left out.) -/
theorem parseConfig_last_wins {FS : Type} (w : World FS) (fl : Flags) (conf sep : Str)
    (params : Ctx) (segs : List Str) (n : Nat)
    (hsplit : Split conf sep = segs ++ List.replicate n [])
    (hsegs : ∀ seg ∈ segs, seg ≠ []) :
    (∃ d, parseConfig conf params sep = some d ∧
      (∀ l1 seg l2, segs = l1 ++ seg :: l2 → (∀ s ∈ l2, lineKey s ≠ lineKey seg) →
        mapGet d (lineKey seg) = some (Value.str (lineValue seg))) ∧
      (∀ k, (∀ seg ∈ segs, lineKey seg ≠ k) → mapGet d k = mapGet params k)) ∧
    (sep = "\n".toList → ∀ text body : Str, Split text fl.seperator = [conf, body] →
      (∃ d1, docContext w fl params text = Except.ok d1 ∧
        ∀ l1 seg l2, segs = l1 ++ seg :: l2 → (∀ s ∈ l2, lineKey s ≠ lineKey seg) →
          lineKey seg ≠ "Post".toList →
          mapGet d1 (lineKey seg) = some (Value.str (lineValue seg))) ∧
      (∀ (fs0 : FS) (confText name : Str) (st : State FS),
        main w fl fs0 confText [(name, text)] = (none, st) →
        ∀ l1 seg l2, segs = l1 ++ seg :: l2 → (∀ s ∈ l2, lineKey s ≠ lineKey seg) →
          lineKey seg ≠ "Post".toList → lineKey seg ≠ "Content".toList →
          lineKey seg ≠ "Layout".toList → lineKey seg ≠ "Title".toList →
          lineKey seg ≠ "Posts".toList →
          mapGet st.d (lineKey seg) = some (Value.str (lineValue seg)))) ∧
    (sep = ",".toList → fl.config = conf → ∀ (fs0 : FS) (confText : Str),
      ∃ st, main w fl fs0 confText [] = (none, st) ∧
        ∀ l1 seg l2, segs = l1 ++ seg :: l2 → (∀ s ∈ l2, lineKey s ≠ lineKey seg) →
          lineKey seg ≠ "Content".toList → lineKey seg ≠ "Title".toList →
          lineKey seg ≠ "Posts".toList →
          mapGet st.d (lineKey seg) = some (Value.str (lineValue seg))) := by
  have hfront : ∀ (d : Ctx) (text body : Str), sep = "\n".toList →
      Split text fl.seperator = [conf, body] →
      ∃ d1, docContext w fl d text = Except.ok d1 ∧
        ∀ l1 seg l2, segs = l1 ++ seg :: l2 → (∀ s ∈ l2, lineKey s ≠ lineKey seg) →
          lineKey seg ≠ "Post".toList →
          mapGet d1 (lineKey seg) = some (Value.str (lineValue seg)) := by
    intro d text body hsep hS
    subst hsep
    obtain ⟨c, hc, hlast, -⟩ := parseConfig_block conf "\n".toList d segs n hsplit hsegs
    obtain ⟨c2, hc2, hdoc⟩ := docContext_of_split w fl d text conf body hS
    rw [hc] at hc2
    cases hc2
    refine ⟨_, hdoc, ?_⟩
    intro l1 seg l2 hl hl2 hP
    rw [mapGet_mapSet_other _ _ hP]
    exact hlast l1 seg l2 hl hl2
  refine ⟨parseConfig_block conf sep params segs n hsplit hsegs, ?_, ?_⟩
  · intro hsep text body hS
    refine ⟨hfront params text body hsep hS, ?_⟩
    intro fs0 confText name st hmain l1 seg l2 hl hl2 hP hC hL hT hPs
    obtain ⟨d0, d1, st1, -, -, hrun, hk⟩ := main_success w fl fs0 confText _ st hmain
    have hdocrun := runDocs_single w fl _ st1 name text hrun
    obtain ⟨c, hc, hst⟩ := runDoc_context w fl _ st1 name text hdocrun
    obtain ⟨c2, hc2, hlast⟩ := hfront d1 text body hsep hS
    simp only at hc
    rw [hc] at hc2
    cases hc2
    rw [hk _ hC hT hPs, hst, composePost_other w fl c _ hC hL]
    exact hlast l1 seg l2 hl hl2 hP
  · intro hsep hconf fs0 confText
    subst hsep
    obtain ⟨d0, h0⟩ := parseConfig_total confText [] "\n".toList
    obtain ⟨d1, h1, hlast, -⟩ := parseConfig_block conf ",".toList d0 segs n hsplit hsegs
    rw [← hconf] at h1
    obtain ⟨st, hmain, hk⟩ := main_context w fl fs0 confText [] d0 d1
      { d := d1, posts := [], fs := fs0 } h0 h1 rfl
    refine ⟨st, hmain, ?_⟩
    intro l1 seg l2 hl hl2 hC hT hPs
    rw [hk _ hC hT hPs]
    exact hlast l1 seg l2 hl hl2

/-- C5, at the flag `-config` with the string `Author: B,Site: X` and a config
file that sets `Author` and `Site` too: after `main` the context holds the values
of the flag.  And at a document whose front-matter sets `Author: A` over a config
file that sets `Author: Someone`: after `main` the context holds `A`. -/
theorem parseConfig_last_wins_witness :
    ((Split "Author: B,Site: X".toList ",".toList
        = ["Author: B".toList, "Site: X".toList] ++ List.replicate 0 [] ∧
      ∀ seg ∈ ["Author: B".toList, "Site: X".toList], seg ≠ []) ∧
    ∃ st, main demoWorld { defaultFlags with config := "Author: B,Site: X".toList } []
        "Author: A\nSite: Y\n".toList [] = (none, st) ∧
      mapGet st.d "Author".toList = some (Value.str "B".toList)) ∧
    ((Split "Title: T\nPublished: 2024-01-02\nAuthor: A\n".toList "\n".toList
        = ["Title: T".toList, "Published: 2024-01-02".toList, "Author: A".toList]
          ++ List.replicate 1 [] ∧
      ∀ seg ∈ ["Title: T".toList, "Published: 2024-01-02".toList, "Author: A".toList],
        seg ≠ []) ∧
    (main demoWorld defaultFlags [] "Author: Someone\n".toList
      [("a.md".toList,
        "Title: T\nPublished: 2024-01-02\nAuthor: A\n-----\nbody".toList)]).1 = none ∧
    mapGet (main demoWorld defaultFlags [] "Author: Someone\n".toList
      [("a.md".toList,
        "Title: T\nPublished: 2024-01-02\nAuthor: A\n-----\nbody".toList)]).2.d
      "Author".toList = some (Value.str "A".toList)) := by
  have h1 : Split "Author: B,Site: X".toList ",".toList
      = ["Author: B".toList, "Site: X".toList] ++ List.replicate 0 [] := by decide
  have h2 : ∀ seg ∈ ["Author: B".toList, "Site: X".toList], seg ≠ [] := by decide
  have g1 : Split "Title: T\nPublished: 2024-01-02\nAuthor: A\n".toList "\n".toList
      = ["Title: T".toList, "Published: 2024-01-02".toList, "Author: A".toList]
        ++ List.replicate 1 [] := by decide
  have g2 : ∀ seg ∈ ["Title: T".toList, "Published: 2024-01-02".toList,
      "Author: A".toList], seg ≠ [] := by decide
  have hkey : lineKey "Author: A".toList = "Author".toList := by decide
  have hval : lineValue "Author: A".toList = "A".toList := by decide
  refine ⟨?_, ⟨g1, g2⟩, by decide, ?_⟩
  · obtain ⟨st, hst, hlast⟩ := (parseConfig_last_wins demoWorld
      { defaultFlags with config := "Author: B,Site: X".toList } "Author: B,Site: X".toList
      ",".toList [] ["Author: B".toList, "Site: X".toList] 0 h1 h2).2.2 rfl rfl []
      "Author: A\nSite: Y\n".toList
    refine ⟨⟨h1, h2⟩, st, hst, ?_⟩
    have := hlast [] "Author: B".toList ["Site: X".toList] rfl (by decide) (by decide)
      (by decide) (by decide)
    rw [show lineKey "Author: B".toList = "Author".toList by decide,
      show lineValue "Author: B".toList = "B".toList by decide] at this
    exact this
  · have := ((parseConfig_last_wins demoWorld defaultFlags
      "Title: T\nPublished: 2024-01-02\nAuthor: A\n".toList "\n".toList []
      ["Title: T".toList, "Published: 2024-01-02".toList, "Author: A".toList] 1 g1 g2).2.1 rfl
      "Title: T\nPublished: 2024-01-02\nAuthor: A\n-----\nbody".toList "\nbody".toList
      (by decide)).2 [] "Author: Someone\n".toList "a.md".toList
      (main demoWorld defaultFlags [] "Author: Someone\n".toList
        [("a.md".toList,
          "Title: T\nPublished: 2024-01-02\nAuthor: A\n-----\nbody".toList)]).2
      (Prod.ext (by decide) rfl)
      ["Title: T".toList, "Published: 2024-01-02".toList] "Author: A".toList [] rfl
      (by simp)
    rw [hkey, hval] at this
    exact this (by decide) (by decide) (by decide) (by decide) (by decide)

end Graaff
